import Mathlib

/-!
Verification of the soulstream task/runner/event subsystem.

Shallow embedding of the core components of `soul-server`:

* `EventStore`   — JSONL append-only event log (`service/event_store.py`)
* `RateLimit`    — per-(profile, type) rate-limit record (`service/rate_limit_tracker.py`)
* `RunnerPool`   — LRU runner pool (`service/runner_pool.py`)
* `EngineRun`    — pool return policy of the engine adapter (`service/engine_adapter.py`)
* `TaskTable`    — task creation / cleanup (`service/task_manager.py`)

Pure data is translated directly; stateful Python objects become explicit
state records with operations as state-passing functions.
-/

namespace Soulstream

namespace EventStore

/-- One line of a session's JSONL file: either a parseable JSON object
`\x7b"id": i, "event": e\x7d` (the event payload abstracted to a `Nat` tag),
a parseable object without an `"id"` key is modelled as `record 0 e`
(mirroring `data.get("id", 0)`), or a corrupted (non-JSON) line. -/
inductive Line where
  | record (id : Nat) (ev : Nat)
  | corrupt
deriving DecidableEq

/-- `json.loads` of one stripped line: a corrupted line raises
(`none` here), a valid line yields its `(id, event)` pair. -/
def parseRec : Line → Option (Nat × Nat)
  | .record i e => some (i, e)
  | .corrupt => none

/-- The scanning loop of `EventStore._load_next_id`: folds `max` over the
`"id"` fields of the lines.  The whole `for` loop sits inside one
`try/except (json.JSONDecodeError, OSError)`, so the scan STOPS at the
first corrupted line (the exception aborts the loop). -/
def scanLastId : List Line → Nat → Nat
  | [], acc => acc
  | .record i _ :: rest, acc => scanLastId rest (max acc i)
  | .corrupt :: _, acc => acc

/-- `EventStore._load_next_id` on an existing file: `last_id + 1`.
A missing file is modelled as the empty line list (both give `1`). -/
def loadNextId (file : List Line) : Nat := scanLastId file 0 + 1

/-- The per-session state of the store: the persisted JSONL lines and the
cached next id (`self._next_id[key]`, absent = cache cold). -/
structure SessionStore where
  file : List Line
  cache : Option Nat
deriving DecidableEq

/-- A session never written to: no file, no cached counter. -/
def fresh : SessionStore := ⟨[], none⟩

/-- The id `EventStore.append` allocates: the cached next id if present,
otherwise `_load_next_id` rescans the file. -/
def nextIdOf (st : SessionStore) : Nat :=
  match st.cache with
  | some n => n
  | none => loadNextId st.file

/-- `EventStore.append`: allocate the id, write the record as a new line,
cache `id + 1`; returns the assigned id. -/
def append (st : SessionStore) (ev : Nat) : Nat × SessionStore :=
  let i := nextIdOf st
  (i, ⟨st.file ++ [.record i ev], some (i + 1)⟩)

/-- A sequence of `append` calls, collecting the assigned ids. -/
def appendMany (st : SessionStore) (evs : List Nat) : List Nat × SessionStore :=
  match evs with
  | [] => ([], st)
  | e :: rest =>
      let p := append st e
      let q := appendMany p.2 rest
      (p.1 :: q.1, q.2)

/-- The reading loop of `EventStore.read_all`: each line is parsed under
its own `try/except`, so corrupted lines are skipped and reading
continues. -/
def readAllFile (file : List Line) : List (Nat × Nat) := file.filterMap parseRec

/-- `EventStore.read_all`. -/
def readAll (st : SessionStore) : List (Nat × Nat) := readAllFile st.file

/-- `EventStore.read_since`: the records of `read_all` with `id > after_id`. -/
def readSince (st : SessionStore) (afterId : Nat) : List (Nat × Nat) :=
  (readAll st).filter (fun r => decide (afterId < r.1))

/-- `EventStore.cleanup_session`: drops the cached counter (and lock),
keeps the backing file. -/
def cleanupSession (st : SessionStore) : SessionStore := ⟨st.file, none⟩

/-- `EventStore.delete_session`: drops the cache and removes the file. -/
def deleteSession (_st : SessionStore) : SessionStore := ⟨[], none⟩

/-- The largest id among the parseable records of a file. -/
def maxValidId (file : List Line) : Nat :=
  (readAllFile file).foldl (fun a r => max a r.1) 0

/-- The file produced by appending events `evs` with ids `s+1, s+2, …`. -/
def mkFile : Nat → List Nat → List Line
  | _, [] => []
  | s, e :: rest => .record (s + 1) e :: mkFile (s + 1) rest

theorem mkFile_length (s : Nat) (evs : List Nat) : (mkFile s evs).length = evs.length := by
  induction evs generalizing s with
  | nil => rfl
  | cons e rest ih => simp [mkFile, ih]

theorem mkFile_snoc (s : Nat) (evs : List Nat) (e : Nat) :
    mkFile s (evs ++ [e]) = mkFile s evs ++ [.record (s + evs.length + 1) e] := by
  induction evs generalizing s with
  | nil => simp [mkFile]
  | cons x rest ih =>
      have h1 : mkFile s (x :: rest ++ [e]) = .record (s + 1) x :: mkFile (s + 1) (rest ++ [e]) := rfl
      rw [h1, ih (s + 1)]
      have h2 : s + 1 + rest.length + 1 = s + (x :: rest).length + 1 := by
        simp only [List.length_cons]
        omega
      rw [h2]
      rfl

theorem scanLastId_mkFile (evs : List Nat) (s acc : Nat) (h : s ≤ acc) :
    scanLastId (mkFile s evs) acc = max acc (s + evs.length) := by
  induction evs generalizing s acc with
  | nil => simp [mkFile, scanLastId]; omega
  | cons e rest ih =>
      simp only [mkFile, scanLastId]
      rw [ih (s + 1) (max acc (s + 1)) (by omega)]
      simp only [List.length_cons]
      omega

theorem loadNextId_mkFile (evs : List Nat) : loadNextId (mkFile 0 evs) = evs.length + 1 := by
  simp [loadNextId, scanLastId_mkFile evs 0 0 (by omega)]

theorem readAllFile_mkFile (s : Nat) (evs : List Nat) :
    readAllFile (mkFile s evs) = (List.range' (s + 1) evs.length).zip evs := by
  induction evs generalizing s with
  | nil => rfl
  | cons e rest ih =>
      simp only [mkFile, readAllFile, List.filterMap_cons, parseRec, List.length_cons,
        List.range'_succ, List.zip_cons_cons]
      exact congrArg _ (ih (s + 1))

theorem appendMany_parts (evs done : List Nat) (c : Option Nat)
    (hc : c = none ∨ c = some (done.length + 1)) :
    (appendMany ⟨mkFile 0 done, c⟩ evs).1 = List.range' (done.length + 1) evs.length ∧
    (appendMany ⟨mkFile 0 done, c⟩ evs).2.file = mkFile 0 (done ++ evs) ∧
    nextIdOf (appendMany ⟨mkFile 0 done, c⟩ evs).2 = done.length + evs.length + 1 := by
  induction evs generalizing done c with
  | nil =>
      refine ⟨rfl, by simp [appendMany], ?_⟩
      rcases hc with h | h <;> subst h
      · simp [appendMany, nextIdOf, loadNextId_mkFile]
      · simp [appendMany, nextIdOf]
  | cons e rest ih =>
      have hid : nextIdOf ⟨mkFile 0 done, c⟩ = done.length + 1 := by
        rcases hc with h | h <;> subst h
        · simp [nextIdOf, loadNextId_mkFile]
        · simp [nextIdOf]
      have hstep : append ⟨mkFile 0 done, c⟩ e
          = (done.length + 1, ⟨mkFile 0 (done ++ [e]), some ((done ++ [e]).length + 1)⟩) := by
        simp [append, hid, mkFile_snoc]
      have ih2 := ih (done ++ [e]) (some ((done ++ [e]).length + 1)) (Or.inr rfl)
      have hun : appendMany ⟨mkFile 0 done, c⟩ (e :: rest)
          = ((append ⟨mkFile 0 done, c⟩ e).1 ::
                (appendMany (append ⟨mkFile 0 done, c⟩ e).2 rest).1,
             (appendMany (append ⟨mkFile 0 done, c⟩ e).2 rest).2) := rfl
      rw [hun, hstep]
      refine ⟨?_, ?_, ?_⟩
      · rw [ih2.1]
        simp [List.range'_succ]
      · simp only [ih2.2.1, List.append_assoc, List.singleton_append]
      · rw [ih2.2.2]
        simp only [List.length_append, List.length_cons, List.length_nil]
        omega

theorem appendMany_fresh (evs : List Nat) :
    (appendMany fresh evs).1 = List.range' 1 evs.length ∧
    (appendMany fresh evs).2.file = mkFile 0 evs ∧
    nextIdOf (appendMany fresh evs).2 = evs.length + 1 := by
  have h := appendMany_parts evs [] none (Or.inl rfl)
  simpa [fresh, mkFile] using h

theorem map_fst_filter_lt (l : List (Nat × Nat)) (k : Nat) :
    ((l.filter (fun r => decide (k < r.1))).map Prod.fst)
      = (l.map Prod.fst).filter (fun x => decide (k < x)) := by
  induction l with
  | nil => rfl
  | cons x rest ih =>
      by_cases h : k < x.1
      · simp [List.filter_cons, h, ih]
      · simp [List.filter_cons, h, ih]

theorem filter_range' (n a k : Nat) :
    (List.range' a n).filter (fun x => decide (k < x))
      = List.range' (max a (k + 1)) (a + n - max a (k + 1)) := by
  induction n generalizing a with
  | zero => simp
  | succ m ih =>
      rw [List.range'_succ, List.filter_cons]
      by_cases h : k < a
      · have hmax : max a (k + 1) = a := by omega
        have hmax2 : max (a + 1) (k + 1) = a + 1 := by omega
        rw [if_pos (decide_eq_true h), ih (a + 1), hmax, hmax2]
        have hlen : a + 1 + m - (a + 1) = m := by omega
        have hlen2 : a + (m + 1) - a = m + 1 := by omega
        rw [hlen, hlen2, List.range'_succ]
      · have hmax : max a (k + 1) = k + 1 := by omega
        have hmax2 : max (a + 1) (k + 1) = k + 1 := by omega
        rw [if_neg (by simpa using h), ih (a + 1), hmax, hmax2]
        have hlen : a + 1 + m - (k + 1) = a + (m + 1) - (k + 1) := by omega
        rw [hlen]

theorem readAll_appendMany_fresh (evs : List Nat) :
    (readAll (appendMany fresh evs).2).map Prod.fst = List.range' 1 evs.length := by
  rw [readAll, (appendMany_fresh evs).2.1, readAllFile_mkFile]
  exact List.map_fst_zip _ _ (by simp)

theorem scanLastId_append_corrupt (l : List Line) (hl : Line.corrupt ∉ l)
    (rest : List Line) (acc : Nat) :
    scanLastId (l ++ Line.corrupt :: rest) acc = scanLastId l acc := by
  induction l generalizing acc with
  | nil => rfl
  | cons x xs ih =>
      match x with
      | .record i e =>
          simp only [List.cons_append, scanLastId]
          exact ih (fun h => hl (List.mem_cons_of_mem _ h)) (max acc i)
      | .corrupt => exact absurd (List.mem_cons_self _ _) hl

theorem scanLastId_eq_fold (l : List Line) (hl : Line.corrupt ∉ l) (acc : Nat) :
    scanLastId l acc = (readAllFile l).foldl (fun a r => max a r.1) acc := by
  induction l generalizing acc with
  | nil => rfl
  | cons x xs ih =>
      match x with
      | .record i e =>
          simp only [scanLastId, readAllFile, List.filterMap_cons, parseRec, List.foldl_cons]
          exact ih (fun h => hl (List.mem_cons_of_mem _ h)) (max acc i)
      | .corrupt => exact absurd (List.mem_cons_self _ _) hl

end EventStore

open EventStore in
/-- C1: for every session, the Event Log assigns ids by `append` as the
contiguous increasing sequence `1, 2, …, N` (each append returns the
previous id plus one, starting at `1` for a fresh session), and for every
`after_id` `k`, `read_since` returns exactly the records with `id > k`,
in id order. -/
theorem c1_event_log_ids_contiguous_read_since_exact (evs : List Nat) (k : Nat) :
    (appendMany fresh evs).1 = List.range' 1 evs.length ∧
    (readAll (appendMany fresh evs).2).map Prod.fst = List.range' 1 evs.length ∧
    readSince (appendMany fresh evs).2 k
      = (readAll (appendMany fresh evs).2).filter (fun r => decide (k < r.1)) ∧
    (readSince (appendMany fresh evs).2 k).map Prod.fst
      = List.range' (k + 1) (evs.length - k) := by
  refine ⟨(appendMany_fresh evs).1, readAll_appendMany_fresh evs, rfl, ?_⟩
  rw [readSince, map_fst_filter_lt, readAll_appendMany_fresh, filter_range']
  have h1 : max 1 (k + 1) = k + 1 := by omega
  rw [h1]
  have h2 : 1 + evs.length - (k + 1) = evs.length - k := by omega
  rw [h2]

open EventStore in
/-- C10: after `cleanup_session` (cache dropped, file kept) the next
`append` re-derives the last id from the persisted records and assigns
`N + 1`, keeping the id sequence contiguous; after `delete_session`
(file removed) the sequence restarts at `1`. -/
theorem c10_cleanup_session_keeps_id_sequence (evs : List Nat) (e1 e2 : Nat) :
    (append (cleanupSession (appendMany fresh evs).2) e1).1 = evs.length + 1 ∧
    (readAll (append (cleanupSession (appendMany fresh evs).2) e1).2).map Prod.fst
      = List.range' 1 (evs.length + 1) ∧
    (append (deleteSession (appendMany fresh evs).2) e2).1 = 1 := by
  have hfile := (appendMany_fresh evs).2.1
  refine ⟨?_, ?_, rfl⟩
  · simp [append, cleanupSession, nextIdOf, hfile, loadNextId_mkFile]
  · have h1 : (append (cleanupSession (appendMany fresh evs).2) e1).2.file
        = mkFile 0 (evs ++ [e1]) := by
      simp [append, cleanupSession, nextIdOf, hfile, loadNextId_mkFile, mkFile_snoc]
    rw [readAll, h1, readAllFile_mkFile, List.map_fst_zip _ _ (by simp)]
    simp

open EventStore in
/-- C8 counterexample: with the persisted file `[corrupt, record 3]` and a
cold cache, the claim says the first `append` assigns
`max(existing valid ids) + 1 = 4`; the code's one-time scan
(`_load_next_id`) stops at the first corrupted line, so it assigns `1`. -/
theorem c8_counterexample_scan_stops_at_corrupt :
    (append ⟨[Line.corrupt, Line.record 3 0], none⟩ 7).1
      ≠ maxValidId [Line.corrupt, Line.record 3 0] + 1 := by decide

open EventStore in
/-- C8 (amended): `read_all`/`read_since` skip corrupted lines and keep
reading, returning every parseable record; the one-time id-recovery scan
instead STOPS at the first corrupted line, so the first `append` after a
cold cache assigns `max(valid ids before the first corrupted line) + 1`
(which equals `max(valid ids) + 1` whenever every corrupted line comes
after the valid records). -/
theorem c8_amended_corrupt_line_handling (pre post : List Line) (e : Nat)
    (hpre : Line.corrupt ∉ pre) :
    (append ⟨pre ++ Line.corrupt :: post, none⟩ e).1 = maxValidId pre + 1 ∧
    readAllFile (pre ++ Line.corrupt :: post) = readAllFile pre ++ readAllFile post := by
  constructor
  · show nextIdOf ⟨pre ++ Line.corrupt :: post, none⟩ = maxValidId pre + 1
    simp only [nextIdOf, loadNextId, scanLastId_append_corrupt pre hpre post 0,
      scanLastId_eq_fold pre hpre 0, maxValidId]
  · simp [readAllFile, List.filterMap_append, List.filterMap_cons, parseRec]

/-- Witness for C8 (amended) at the concrete file
`[record 1, record 4] ++ [corrupt] ++ [record 9]`. -/
theorem c8_amended_corrupt_line_handling_witness :
    EventStore.Line.corrupt ∉ [EventStore.Line.record 1 0, EventStore.Line.record 4 0] ∧
    ((EventStore.append ⟨[EventStore.Line.record 1 0, EventStore.Line.record 4 0] ++
          EventStore.Line.corrupt :: [EventStore.Line.record 9 0], none⟩ 5).1
        = EventStore.maxValidId [EventStore.Line.record 1 0, EventStore.Line.record 4 0] + 1 ∧
      EventStore.readAllFile ([EventStore.Line.record 1 0, EventStore.Line.record 4 0] ++
          EventStore.Line.corrupt :: [EventStore.Line.record 9 0])
        = EventStore.readAllFile [EventStore.Line.record 1 0, EventStore.Line.record 4 0] ++
          EventStore.readAllFile [EventStore.Line.record 9 0]) :=
  ⟨by decide, c8_amended_corrupt_line_handling
    [EventStore.Line.record 1 0, EventStore.Line.record 4 0]
    [EventStore.Line.record 9 0] 5 (by decide)⟩

namespace TaskTable

/-- `TaskStatus` from `service/task_models.py`. -/
inductive TaskStatus where
  | running
  | completed
  | error
deriving DecidableEq

/-- The fields of `Task` (from `service/task_models.py`) that the claims
touch.  `execDone` stands for "`execution_task` is `None` or
`execution_task.done()`". -/
structure Task where
  status : TaskStatus
  prompt : String
  resumeSessionId : Option String
  createdAt : Int
  completedAt : Option Int
  errMsg : Option String
  execDone : Bool
deriving DecidableEq

/-- The `Task(...)` constructed by `TaskManager.create_task`: status
RUNNING, fresh timestamps, no execution handle yet. -/
def freshTask (prompt : String) (rs : Option String) (now : Int) : Task :=
  ⟨.running, prompt, rs, now, none, none, true⟩

/-- `key = f"{client_id}:{request_id}"`. -/
def taskKey (clientId requestId : String) : String := clientId ++ ":" ++ requestId

/-- `self._tasks` is a dict; model it as an association list whose keys
are unique.  `lookupTask` is `self._tasks.get(key)`. -/
def lookupTask : List (String × Task) → String → Option Task
  | [], _ => none
  | (k1, t1) :: rest, k => if k1 = k then some t1 else lookupTask rest k

/-- Python dict assignment `self._tasks[key] = task`: replace in place,
append when absent. -/
def setTask : List (String × Task) → String → Task → List (String × Task)
  | [], k, t => [(k, t)]
  | (k1, t1) :: rest, k, t =>
      if k1 = k then (k, t) :: rest else (k1, t1) :: setTask rest k t

/-- Number of entries under key `k`. -/
def keyCount (tasks : List (String × Task)) (k : String) : Nat :=
  (tasks.filter (fun p => decide (p.1 = k))).length

/-- Number of RUNNING entries under key `k`. -/
def runningCount (tasks : List (String × Task)) (k : String) : Nat :=
  (tasks.filter (fun p => decide (p.1 = k) && decide (p.2.status = .running))).length

/-- `TaskManager.create_task`: conflict when an existing task under the
key is RUNNING, otherwise overwrite with a fresh RUNNING task. -/
def createTask (tasks : List (String × Task)) (clientId requestId prompt : String)
    (rs : Option String) (now : Int) : Except Unit (List (String × Task)) :=
  let key := taskKey clientId requestId
  match lookupTask tasks key with
  | some t =>
      if t.status = .running then .error ()
      else .ok (setTask tasks key (freshTask prompt rs now))
  | none => .ok (setTask tasks key (freshTask prompt rs now))

theorem lookupTask_setTask_self (l : List (String × Task)) (k : String) (t : Task) :
    lookupTask (setTask l k t) k = some t := by
  induction l with
  | nil => simp [setTask, lookupTask]
  | cons p rest ih =>
      by_cases h : p.1 = k
      · simp [setTask, h, lookupTask]
      · simp [setTask, h, lookupTask, ih]

theorem lookupTask_setTask_other (l : List (String × Task)) (k k' : String) (t : Task)
    (h : k' ≠ k) : lookupTask (setTask l k t) k' = lookupTask l k' := by
  have hne : ¬k = k' := fun a => h a.symm
  induction l with
  | nil =>
      show (if k = k' then some t else none) = none
      rw [if_neg hne]
  | cons p rest ih =>
      obtain ⟨k1, t1⟩ := p
      by_cases hp : k1 = k
      · have h1 : setTask ((k1, t1) :: rest) k t = (k, t) :: rest := by simp [setTask, hp]
        rw [h1]
        show (if k = k' then some t else lookupTask rest k')
            = if k1 = k' then some t1 else lookupTask rest k'
        rw [if_neg hne, if_neg (show ¬k1 = k' by rw [hp]; exact hne)]
      · have h1 : setTask ((k1, t1) :: rest) k t = (k1, t1) :: setTask rest k t := by
          simp [setTask, hp]
        rw [h1]
        show (if k1 = k' then some t1 else lookupTask (setTask rest k t) k')
            = if k1 = k' then some t1 else lookupTask rest k'
        rw [ih]

theorem keyCount_setTask_self (l : List (String × Task)) (k : String) (t : Task)
    (h : keyCount l k ≤ 1) : keyCount (setTask l k t) k = 1 := by
  induction l with
  | nil => simp [setTask, keyCount]
  | cons p rest ih =>
      obtain ⟨k1, t1⟩ := p
      by_cases hp : k1 = k
      · have h1 : setTask ((k1, t1) :: rest) k t = (k, t) :: rest := by simp [setTask, hp]
        have hcnt : keyCount ((k1, t1) :: rest) k = keyCount rest k + 1 := by
          simp [keyCount, List.filter_cons, hp]
        have h0 : keyCount rest k = 0 := by omega
        have h0a : (rest.filter (fun q => decide (q.1 = k))).length = 0 := h0
        have hfil : rest.filter (fun q => decide (q.1 = k)) = [] :=
          List.length_eq_zero.mp h0a
        rw [h1]
        simp [keyCount, List.filter_cons, hfil]
      · have h1 : setTask ((k1, t1) :: rest) k t = (k1, t1) :: setTask rest k t := by
          simp [setTask, hp]
        have hcnt : keyCount ((k1, t1) :: rest) k = keyCount rest k := by
          simp [keyCount, List.filter_cons, hp]
        rw [h1]
        have h2 : keyCount ((k1, t1) :: setTask rest k t) k
            = keyCount (setTask rest k t) k := by
          simp [keyCount, List.filter_cons, hp]
        rw [h2]
        exact ih (by omega)

theorem keyCount_setTask_other (l : List (String × Task)) (k k' : String) (t : Task)
    (h : k' ≠ k) : keyCount (setTask l k t) k' = keyCount l k' := by
  have hne : ¬k = k' := fun a => h a.symm
  induction l with
  | nil =>
      show ([(k, t)].filter (fun q => decide (q.1 = k'))).length
        = ([].filter (fun q => decide (q.1 = k'))).length
      simp [List.filter_cons, hne]
  | cons p rest ih =>
      obtain ⟨k1, t1⟩ := p
      by_cases hp : k1 = k
      · have h1 : setTask ((k1, t1) :: rest) k t = (k, t) :: rest := by simp [setTask, hp]
        rw [h1]
        have e1 : keyCount ((k, t) :: rest) k' = keyCount rest k' := by
          simp [keyCount, List.filter_cons, hne]
        have e2 : keyCount ((k1, t1) :: rest) k' = keyCount rest k' := by
          simp [keyCount, List.filter_cons, show ¬k1 = k' by rw [hp]; exact hne]
        rw [e1, e2]
      · have h1 : setTask ((k1, t1) :: rest) k t = (k1, t1) :: setTask rest k t := by
          simp [setTask, hp]
        rw [h1]
        by_cases hp' : k1 = k'
        · have e1 : keyCount ((k1, t1) :: setTask rest k t) k'
              = keyCount (setTask rest k t) k' + 1 := by
            simp [keyCount, List.filter_cons, hp']
          have e2 : keyCount ((k1, t1) :: rest) k' = keyCount rest k' + 1 := by
            simp [keyCount, List.filter_cons, hp']
          rw [e1, e2, ih]
        · have e1 : keyCount ((k1, t1) :: setTask rest k t) k'
              = keyCount (setTask rest k t) k' := by
            simp [keyCount, List.filter_cons, hp']
          have e2 : keyCount ((k1, t1) :: rest) k' = keyCount rest k' := by
            simp [keyCount, List.filter_cons, hp']
          rw [e1, e2, ih]

theorem runningCount_le_keyCount (l : List (String × Task)) (k : String) :
    runningCount l k ≤ keyCount l k := by
  induction l with
  | nil => simp [runningCount, keyCount]
  | cons p rest ih =>
      simp only [runningCount, keyCount, List.filter_cons] at ih ⊢
      by_cases h1 : p.1 = k <;> by_cases h2 : p.2.status = .running <;>
        simp [h1, h2] <;> omega

end TaskTable

open TaskTable in
/-- C3: `create_task` raises `TaskConflictError` iff a task with the same
`(client_id, request_id)` key exists with status RUNNING; otherwise it
overwrites any existing (terminal) task under that key with a fresh
RUNNING task, leaving all other keys untouched, so each key holds at most
one RUNNING task. -/
theorem c3_create_task_conflict_iff_running (tasks : List (String × Task))
    (cid rid prompt : String) (rs : Option String) (now : Int)
    (hwf : ∀ k, keyCount tasks k ≤ 1) :
    (createTask tasks cid rid prompt rs now = .error () ↔
      ∃ t, lookupTask tasks (taskKey cid rid) = some t ∧ t.status = .running) ∧
    (∀ tm2, createTask tasks cid rid prompt rs now = .ok tm2 →
      lookupTask tm2 (taskKey cid rid) = some (freshTask prompt rs now) ∧
      (∀ k, k ≠ taskKey cid rid → lookupTask tm2 k = lookupTask tasks k) ∧
      (∀ k, runningCount tm2 k ≤ 1)) := by
  constructor
  · constructor
    · intro h
      match hl : lookupTask tasks (taskKey cid rid) with
      | none =>
          simp only [createTask, hl] at h
          exact Except.noConfusion h
      | some t =>
          by_cases hr : t.status = .running
          · exact ⟨t, rfl, hr⟩
          · simp only [createTask, hl, if_neg hr] at h
            exact Except.noConfusion h
    · rintro ⟨t, hl, hr⟩
      simp [createTask, hl, hr]
  · intro tm2 h
    have hset : tm2 = setTask tasks (taskKey cid rid) (freshTask prompt rs now) := by
      match hl : lookupTask tasks (taskKey cid rid) with
      | none =>
          simp only [createTask, hl] at h
          exact (Except.ok.inj h).symm
      | some t =>
          by_cases hr : t.status = .running
          · simp only [createTask, hl, if_pos hr] at h
            exact Except.noConfusion h
          · simp only [createTask, hl, if_neg hr] at h
            exact (Except.ok.inj h).symm
    subst hset
    refine ⟨lookupTask_setTask_self _ _ _, fun k hk => lookupTask_setTask_other _ _ _ _ hk, ?_⟩
    intro k
    by_cases hk : k = taskKey cid rid
    · rw [hk]
      calc runningCount (setTask tasks (taskKey cid rid) (freshTask prompt rs now))
            (taskKey cid rid)
          ≤ keyCount (setTask tasks (taskKey cid rid) (freshTask prompt rs now))
            (taskKey cid rid) := runningCount_le_keyCount _ _
        _ = 1 := keyCount_setTask_self _ _ _ (hwf _)
    · calc runningCount (setTask tasks (taskKey cid rid) (freshTask prompt rs now)) k
          ≤ keyCount (setTask tasks (taskKey cid rid) (freshTask prompt rs now)) k :=
            runningCount_le_keyCount _ _
        _ = keyCount tasks k := keyCount_setTask_other _ _ _ _ hk
        _ ≤ 1 := hwf k

/-- Witness for C3 at a concrete one-entry table holding a COMPLETED task. -/
theorem c3_create_task_conflict_iff_running_witness :
    (∀ k, TaskTable.keyCount [("a:b", TaskTable.Task.mk .completed "q" none 0 (some 1) none true)] k ≤ 1) ∧
    ((TaskTable.createTask [("a:b", TaskTable.Task.mk .completed "q" none 0 (some 1) none true)]
        "a" "b" "p" none 2 = .error () ↔
      ∃ t, TaskTable.lookupTask [("a:b", TaskTable.Task.mk .completed "q" none 0 (some 1) none true)]
            (TaskTable.taskKey "a" "b") = some t ∧ t.status = .running) ∧
    (∀ tm2, TaskTable.createTask [("a:b", TaskTable.Task.mk .completed "q" none 0 (some 1) none true)]
        "a" "b" "p" none 2 = .ok tm2 →
      TaskTable.lookupTask tm2 (TaskTable.taskKey "a" "b")
          = some (TaskTable.freshTask "p" none 2) ∧
      (∀ k, k ≠ TaskTable.taskKey "a" "b" →
        TaskTable.lookupTask tm2 k
          = TaskTable.lookupTask [("a:b", TaskTable.Task.mk .completed "q" none 0 (some 1) none true)] k) ∧
      (∀ k, TaskTable.runningCount tm2 k ≤ 1))) := by
  constructor
  · intro k
    by_cases h : "a:b" = k <;> simp [TaskTable.keyCount, List.filter_cons, h]
  · exact c3_create_task_conflict_iff_running _ "a" "b" "p" none 2
      (by
        intro k
        by_cases h : "a:b" = k <;> simp [TaskTable.keyCount, List.filter_cons, h])

namespace TaskTable

/-- The removal condition of `TaskManager.cleanup_old_tasks`:
a RUNNING task is removed only when its execution handle is absent or
done AND it is older than the cutoff; any other task is removed when it
is older than the cutoff. -/
def shouldRemove (cutoff : Int) (t : Task) : Bool :=
  if t.status = .running then t.execDone && decide (t.createdAt < cutoff)
  else decide (t.createdAt < cutoff)

/-- `keys_to_remove` as collected by the first loop of
`cleanup_old_tasks`. -/
def keysToRemove (tasks : List (String × Task)) (cutoff : Int) : List String :=
  (tasks.filter (fun p => shouldRemove cutoff p.2)).map Prod.fst

/-- The ERROR transition applied to an orphaned RUNNING task before it is
removed (`task.status = ERROR; task.error = …; task.completed_at = …`). -/
def markOrphan (now : Int) (t : Task) : Task :=
  { t with status := .error, errMsg := some "orphaned", completedAt := some now }

/-- The first loop of `cleanup_old_tasks`: orphaned RUNNING tasks that
will be removed are first transitioned to ERROR in place. -/
def markPass (tasks : List (String × Task)) (cutoff now : Int) : List (String × Task) :=
  tasks.map (fun p =>
    if decide (p.2.status = .running) && shouldRemove cutoff p.2
    then (p.1, markOrphan now p.2) else p)

/-- Membership test used to model `del self._tasks[key]` for the
collected keys. -/
def keyMem : List String → String → Bool
  | [], _ => false
  | x :: rest, k => decide (x = k) || keyMem rest k

/-- `TaskManager.cleanup_old_tasks`: mark orphans, delete every collected
key, return the number of removed tasks together with the new table. -/
def cleanupOldTasks (tasks : List (String × Task)) (cutoff now : Int) :
    Nat × List (String × Task) :=
  let ks := keysToRemove tasks cutoff
  (ks.length, (markPass tasks cutoff now).filter (fun p => !(keyMem ks p.1)))

theorem keyMem_iff (l : List String) (k : String) : keyMem l k = true ↔ k ∈ l := by
  induction l with
  | nil => simp [keyMem]
  | cons x rest ih =>
      simp only [keyMem, Bool.or_eq_true, decide_eq_true_eq, ih, List.mem_cons]
      constructor
      · rintro (h | h)
        · exact Or.inl h.symm
        · exact Or.inr h
      · rintro (h | h)
        · exact Or.inl h.symm
        · exact Or.inr h

theorem one_le_keyCount_of_mem (l : List (String × Task)) (p : String × Task)
    (hp : p ∈ l) : 1 ≤ keyCount l p.1 := by
  induction l with
  | nil => exact absurd hp (List.not_mem_nil p)
  | cons x rest ih =>
      rcases List.mem_cons.mp hp with h | h
      · subst h
        simp [keyCount, List.filter_cons]
      · by_cases hx : x.1 = p.1
        · simp [keyCount, List.filter_cons, hx]
        · have := ih h
          simp only [keyCount, List.filter_cons, hx] at this ⊢
          simpa using this

theorem keyCount_cons (x : String × Task) (rest : List (String × Task)) (k : String) :
    keyCount (x :: rest) k = keyCount rest k + (if x.1 = k then 1 else 0) := by
  by_cases hx : x.1 = k
  · simp [keyCount, List.filter_cons, hx]
  · simp [keyCount, List.filter_cons, hx]

theorem mem_unique_key (l : List (String × Task)) (hl : ∀ k, keyCount l k ≤ 1)
    (p q : String × Task) (hp : p ∈ l) (hq : q ∈ l) (hk : p.1 = q.1) : p = q := by
  induction l with
  | nil => exact absurd hp (List.not_mem_nil p)
  | cons x rest ih =>
      have hrest : ∀ k, keyCount rest k ≤ 1 := by
        intro k
        have := hl k
        rw [keyCount_cons] at this
        omega
      rcases List.mem_cons.mp hp with hp1 | hp1 <;> rcases List.mem_cons.mp hq with hq1 | hq1
      · rw [hp1, hq1]
      · exfalso
        subst hp1
        have h1 := one_le_keyCount_of_mem rest q hq1
        have h2 := hl q.1
        rw [keyCount_cons, if_pos hk] at h2
        omega
      · exfalso
        subst hq1
        have h1 := one_le_keyCount_of_mem rest p hp1
        have h2 := hl p.1
        rw [keyCount_cons, if_pos hk.symm] at h2
        omega
      · exact ih hrest hp1 hq1

theorem mem_keysToRemove_iff (tasks : List (String × Task)) (cutoff : Int) (x : String) :
    keyMem (keysToRemove tasks cutoff) x = true ↔
      ∃ p ∈ tasks, p.1 = x ∧ shouldRemove cutoff p.2 = true := by
  rw [keyMem_iff, keysToRemove, List.mem_map]
  constructor
  · rintro ⟨p, hp, hpx⟩
    rcases List.mem_filter.mp hp with ⟨hmem, hrem⟩
    exact ⟨p, hmem, hpx, hrem⟩
  · rintro ⟨p, hmem, hpx, hrem⟩
    exact ⟨p, List.mem_filter.mpr ⟨hmem, hrem⟩, hpx⟩

theorem keyMem_eq_shouldRemove (tasks : List (String × Task)) (cutoff : Int)
    (hwf : ∀ k, keyCount tasks k ≤ 1) (p : String × Task) (hp : p ∈ tasks) :
    keyMem (keysToRemove tasks cutoff) p.1 = shouldRemove cutoff p.2 := by
  rcases hb : shouldRemove cutoff p.2 with _ | _
  · rcases hk : keyMem (keysToRemove tasks cutoff) p.1 with _ | _
    · rfl
    · exfalso
      rcases (mem_keysToRemove_iff tasks cutoff p.1).mp hk with ⟨q, hq, hqx, hqr⟩
      have := mem_unique_key tasks hwf q p hq hp hqx
      rw [this] at hqr
      rw [hb] at hqr
      exact Bool.noConfusion hqr
  · exact (mem_keysToRemove_iff tasks cutoff p.1).mpr ⟨p, hp, rfl, hb⟩

end TaskTable

open TaskTable in
/-- C7 counterexample: a RUNNING task whose execution handle is done (an
orphan) but whose `created_at` is NOT older than the cutoff is left in
the table untouched and not counted — `cleanup_old_tasks` does not
reclaim it, contrary to the claim that every orphan is reclaimed. -/
theorem c7_counterexample_fresh_orphan_kept :
    (cleanupOldTasks [("a:b", Task.mk .running "p" none 5 none none true)] 3 10).1 = 0 ∧
    (cleanupOldTasks [("a:b", Task.mk .running "p" none 5 none none true)] 3 10).2
      = [("a:b", Task.mk .running "p" none 5 none none true)] := by decide

open TaskTable in
/-- C7 (amended): `cleanup_old_tasks` removes exactly the terminal tasks
older than the cutoff together with the RUNNING orphans (execution handle
absent or done) that are ALSO older than the cutoff; removed orphans are
first transitioned to ERROR with `completed_at` set; the returned count
is the number of removed tasks.  Orphans newer than the cutoff are kept. -/
theorem c7_amended_cleanup_old_tasks (tasks : List (String × Task)) (cutoff now : Int)
    (hwf : ∀ k, keyCount tasks k ≤ 1) :
    (cleanupOldTasks tasks cutoff now).1
      = (tasks.filter (fun p => shouldRemove cutoff p.2)).length ∧
    (cleanupOldTasks tasks cutoff now).2
      = tasks.filter (fun p => !(shouldRemove cutoff p.2)) ∧
    (∀ p ∈ tasks, p.2.status = .running → shouldRemove cutoff p.2 = true →
      (p.1, markOrphan now p.2) ∈ markPass tasks cutoff now ∧
      (markOrphan now p.2).status = .error ∧
      (markOrphan now p.2).completedAt = some now) ∧
    (∀ t : Task, shouldRemove cutoff t = true ↔
      ((t.status ≠ .running ∧ t.createdAt < cutoff) ∨
       (t.status = .running ∧ t.execDone = true ∧ t.createdAt < cutoff))) := by
  refine ⟨by simp [cleanupOldTasks, keysToRemove], ?_, ?_, ?_⟩
  · have hcomp : (cleanupOldTasks tasks cutoff now).2
        = (tasks.filter ((fun p => !(keyMem (keysToRemove tasks cutoff) p.1)) ∘
            (fun p => if decide (p.2.status = .running) && shouldRemove cutoff p.2
              then (p.1, markOrphan now p.2) else p))).map
            (fun p => if decide (p.2.status = .running) && shouldRemove cutoff p.2
              then (p.1, markOrphan now p.2) else p) := by
      simp only [cleanupOldTasks, markPass]
      exact List.filter_map _ tasks
    rw [hcomp]
    have hpred : ∀ p ∈ tasks,
        ((fun p => !(keyMem (keysToRemove tasks cutoff) p.1)) ∘
          (fun p => if decide (p.2.status = .running) && shouldRemove cutoff p.2
            then (p.1, markOrphan now p.2) else p)) p
        = !(shouldRemove cutoff p.2) := by
      intro p hp
      have hfst : (if decide (p.2.status = .running) && shouldRemove cutoff p.2
          then (p.1, markOrphan now p.2) else p).1 = p.1 := by
        by_cases h : (decide (p.2.status = .running) && shouldRemove cutoff p.2) = true
        · rw [if_pos h]
        · rw [if_neg h]
      simp only [Function.comp_apply]
      rw [hfst, keyMem_eq_shouldRemove tasks cutoff hwf p hp]
    rw [List.filter_congr hpred]
    have hid : ∀ p ∈ tasks.filter (fun p => !(shouldRemove cutoff p.2)),
        (if decide (p.2.status = .running) && shouldRemove cutoff p.2
          then (p.1, markOrphan now p.2) else p) = p := by
      intro p hp
      have h2 := (List.mem_filter.mp hp).2
      have h3 : shouldRemove cutoff p.2 = false := by
        rcases h : shouldRemove cutoff p.2 with _ | _
        · rfl
        · rw [h] at h2
          exact absurd h2 (by simp)
      simp [h3]
    calc (tasks.filter (fun p => !(shouldRemove cutoff p.2))).map
          (fun p => if decide (p.2.status = .running) && shouldRemove cutoff p.2
            then (p.1, markOrphan now p.2) else p)
        = (tasks.filter (fun p => !(shouldRemove cutoff p.2))).map id :=
          List.map_eq_map_iff.mpr (by intro x hx; simpa using hid x hx)
      _ = tasks.filter (fun p => !(shouldRemove cutoff p.2)) := List.map_id _
  · intro p hp hrun hsr
    refine ⟨?_, rfl, rfl⟩
    have hcond : (decide (p.2.status = .running) && shouldRemove cutoff p.2) = true := by
      simp [hrun, hsr]
    have heq : (fun q : String × Task =>
        if decide (q.2.status = .running) && shouldRemove cutoff q.2
        then (q.1, markOrphan now q.2) else q) p = (p.1, markOrphan now p.2) := by
      simp [hcond]
    simp only [markPass]
    exact heq ▸ List.mem_map_of_mem _ hp
  · intro t
    by_cases h : t.status = .running
    · simp [shouldRemove, h]
    · simp [shouldRemove, h]

open TaskTable in
/-- Witness for C7 (amended) at a one-entry table holding an old
COMPLETED task. -/
theorem c7_amended_cleanup_old_tasks_witness :
    (∀ k, keyCount [("a:b", Task.mk .completed "q" none 0 (some 1) none true)] k ≤ 1) ∧
    (cleanupOldTasks [("a:b", Task.mk .completed "q" none 0 (some 1) none true)] 3 9).1
      = ([("a:b", Task.mk .completed "q" none 0 (some 1) none true)].filter
          (fun p => shouldRemove 3 p.2)).length := by
  have hwf : ∀ k, keyCount [("a:b", Task.mk .completed "q" none 0 (some 1) none true)] k ≤ 1 := by
    intro k
    by_cases h : "a:b" = k <;> simp [keyCount, List.filter_cons, h]
  exact ⟨hwf, (c7_amended_cleanup_old_tasks _ 3 9 hwf).1⟩

namespace RateLimit

/-- The state stored per `(profile, rate_limit_type)` by
`RateLimitTracker` (`service/rate_limit_tracker.py`): utilization as a
rational (the float comparisons at the 0.95 threshold are exact),
`resets_at` as an optional integer timestamp, and the one-shot alert
flag. -/
structure TypeState where
  utilization : ℚ
  resetsAt : Option Int
  alerted95 : Bool
deriving DecidableEq

/-- The freshly initialised record
`\x7b"utilization": 0.0, "resets_at": None, "alerted_95": False\x7d`. -/
def initState : TypeState := ⟨0, none, false⟩

/-- `_ALERT_THRESHOLD = 0.95`. -/
def alertThreshold : ℚ := 95 / 100

/-- `RateLimitTracker._check_auto_reset`: if the stored `resets_at` has
passed, reset the record. -/
def checkAutoReset (now : Int) (ts : TypeState) : TypeState :=
  match ts.resetsAt with
  | some t => if t ≤ now then initState else ts
  | none => ts

/-- `RateLimitTracker.record` restricted to one `(profile, type)` record
(the incoming event names this record, an active profile is set, and
`utilization` is numeric): auto-reset, write the new `utilization` and
`resets_at`, then produce the alert exactly when the threshold is
reached and `alerted_95` is still false.  The returned `Bool` stands for
"an alert payload was returned". -/
def record (now : Int) (ts : TypeState) (util : ℚ) (resetsAt : Option Int) :
    Bool × TypeState :=
  let ts1 := checkAutoReset now ts
  let ts2 : TypeState := ⟨util, resetsAt, ts1.alerted95⟩
  if alertThreshold ≤ util ∧ ts2.alerted95 = false
  then (true, ⟨ts2.utilization, ts2.resetsAt, true⟩)
  else (false, ts2)

theorem record_fst (now : Int) (ts : TypeState) (util : ℚ) (resetsAt : Option Int) :
    (record now ts util resetsAt).1 = true ↔
      (alertThreshold ≤ util ∧ (checkAutoReset now ts).alerted95 = false) := by
  by_cases h : alertThreshold ≤ util ∧ (checkAutoReset now ts).alerted95 = false
  · simp [record, h]
  · simp [record, h]

theorem record_snd_alerted (now : Int) (ts : TypeState) (util : ℚ) (resetsAt : Option Int) :
    (record now ts util resetsAt).2.alerted95
      = ((checkAutoReset now ts).alerted95 || decide (alertThreshold ≤ util)) := by
  by_cases h1 : alertThreshold ≤ util
  · by_cases h2 : (checkAutoReset now ts).alerted95 = false
    · simp [record, h1, h2]
    · have h2' : (checkAutoReset now ts).alerted95 = true := by
        rcases h : (checkAutoReset now ts).alerted95 with _ | _
        · exact absurd h h2
        · rfl
      simp [record, h1, h2']
  · simp [record, h1]

theorem record_snd_resetsAt (now : Int) (ts : TypeState) (util : ℚ) (resetsAt : Option Int) :
    (record now ts util resetsAt).2.resetsAt = resetsAt := by
  by_cases h : alertThreshold ≤ util ∧ (checkAutoReset now ts).alerted95 = false
  · simp [record, h]
  · simp [record, h]

end RateLimit

open RateLimit in
/-- C4: for every `(profile, limit_type)` record, `record` returns an
alert payload iff the incoming utilization is ≥ 0.95 and `alerted_95`
was false (after the auto-reset check); a stored `resets_at` that has
passed resets the record to `\x7b0.0, null, alerted_95=false\x7d` before the
new values are written, a `resets_at` still in the future leaves the
record untouched; after an alert, any further event in the same window
(its `resets_at` not yet passed) produces no alert; after a reset, a
later ≥ 0.95 event produces a fresh alert. -/
theorem c4_rate_limit_alert_once_per_window (ts : TypeState) (now now2 : Int)
    (u u2 : ℚ) (ra ra2 : Option Int) :
    ((record now ts u ra).1 = true ↔
      (alertThreshold ≤ u ∧ (checkAutoReset now ts).alerted95 = false)) ∧
    ((∀ t, ts.resetsAt = some t → now < t) → checkAutoReset now ts = ts) ∧
    (∀ t, ts.resetsAt = some t → t ≤ now → checkAutoReset now ts = initState) ∧
    ((record now ts u ra).1 = true → (∀ t, ra = some t → now2 < t) →
      (record now2 (record now ts u ra).2 u2 ra2).1 = false) ∧
    ((∃ t, ts.resetsAt = some t ∧ t ≤ now) → alertThreshold ≤ u →
      (record now ts u ra).1 = true) := by
  refine ⟨record_fst now ts u ra, ?_, ?_, ?_, ?_⟩
  · intro h
    match hra : ts.resetsAt with
    | none => simp [checkAutoReset, hra]
    | some t =>
        have := h t hra
        simp [checkAutoReset, hra, show ¬t ≤ now by omega]
  · intro t hra hle
    simp [checkAutoReset, hra, hle]
  · intro halert hfut
    have h1 : (record now ts u ra).2.alerted95 = true := by
      rw [record_snd_alerted]
      rcases (record_fst now ts u ra).mp halert with ⟨hu, _⟩
      simp [hu]
    have h2 : checkAutoReset now2 (record now ts u ra).2 = (record now ts u ra).2 := by
      match hra2 : (record now ts u ra).2.resetsAt with
      | none => simp [checkAutoReset, hra2]
      | some t =>
          rw [record_snd_resetsAt] at hra2
          have := hfut t hra2
          have hra2' : (record now ts u ra).2.resetsAt = some t := by
            rw [record_snd_resetsAt]
            exact hra2
          simp [checkAutoReset, hra2', show ¬t ≤ now2 by omega]
    rcases hX : (record now2 (record now ts u ra).2 u2 ra2).1 with _ | _
    · rfl
    · exfalso
      have hcontra := (record_fst now2 (record now ts u ra).2 u2 ra2).mp hX
      rw [h2, h1] at hcontra
      exact Bool.noConfusion hcontra.2
  · rintro ⟨t, hra, hle⟩ hu
    rw [record_fst]
    refine ⟨hu, ?_⟩
    simp [checkAutoReset, hra, hle, initState]

open RateLimit in
/-- Witness for C4 at the concrete record of spec scenario 5: utilization
0.96 in a fresh window alerts; a following 0.97 in the same window does
not; after the window passes, 0.96 alerts again. -/
theorem c4_rate_limit_alert_once_per_window_witness :
    ((record 0 ⟨94/100, some 10, false⟩ (96/100) (some 10)).1 = true ↔
      (alertThreshold ≤ 96/100 ∧ (checkAutoReset 0 ⟨94/100, some 10, false⟩).alerted95 = false)) ∧
    ((∀ t, (⟨94/100, some 10, false⟩ : TypeState).resetsAt = some t → (0 : Int) < t) →
      checkAutoReset 0 ⟨94/100, some 10, false⟩ = ⟨94/100, some 10, false⟩) ∧
    (∀ t, (⟨94/100, some 10, false⟩ : TypeState).resetsAt = some t → t ≤ 0 →
      checkAutoReset 0 ⟨94/100, some 10, false⟩ = initState) ∧
    ((record 0 ⟨94/100, some 10, false⟩ (96/100) (some 10)).1 = true →
      (∀ t, (some 10 : Option Int) = some t → (5 : Int) < t) →
      (record 5 (record 0 ⟨94/100, some 10, false⟩ (96/100) (some 10)).2 (97/100) (some 10)).1
        = false) ∧
    ((∃ t, (⟨94/100, some 10, false⟩ : TypeState).resetsAt = some t ∧ t ≤ 0) →
      alertThreshold ≤ 96/100 →
      (record 0 ⟨94/100, some 10, false⟩ (96/100) (some 10)).1 = true) :=
  c4_rate_limit_alert_once_per_window ⟨94/100, some 10, false⟩ 0 5 (96/100) (97/100)
    (some 10) (some 10)

namespace RunnerPool

/-- The state of `RunnerPool` (`service/runner_pool.py`).  Runner objects
are identified by creation order: `nextRunner` is the id the injected
factory hands out next.  `sessionPool` models the `OrderedDict`
`session_id → (runner, last_used)` (head = oldest = LRU victim);
`genericPool` models the deque `(runner, idle_since)` (head = oldest).
Monotonic clock values are `Nat`s supplied per call. -/
structure PoolState where
  sessionPool : List (String × Nat × Nat)
  genericPool : List (Nat × Nat)
  hits : Nat
  misses : Nat
  evictions : Nat
  nextRunner : Nat
  maxSize : Nat
  idleTtl : Nat
deriving DecidableEq

/-- A freshly constructed pool. -/
def initPool (maxSize idleTtl : Nat) : PoolState :=
  ⟨[], [], 0, 0, 0, 0, maxSize, idleTtl⟩

/-- `RunnerPool._total_size`. -/
def totalSize (st : PoolState) : Nat :=
  st.sessionPool.length + st.genericPool.length

/-- The runner ids currently idle in either sub-pool. -/
def pooledRunners (st : PoolState) : List Nat :=
  st.sessionPool.map (fun e => e.2.1) ++ st.genericPool.map Prod.fst

/-- `session_id in self._session_pool` / the value
`self._session_pool[session_id]`. -/
def lookupSession : List (String × Nat × Nat) → String → Option (Nat × Nat)
  | [], _ => none
  | (sid, r, t) :: rest, s => if sid = s then some (r, t) else lookupSession rest s

/-- `self._session_pool.pop(session_id)`'s effect on the dict (the keys
of an `OrderedDict` are unique, so filtering is the same removal). -/
def removeSession (sp : List (String × Nat × Nat)) (s : String) :
    List (String × Nat × Nat) :=
  sp.filter (fun e => !(decide (e.1 = s)))

/-- `RunnerPool._evict_lru_unlocked`: drop the oldest session entry,
else the oldest generic entry; `_discard` closes the runner but never
touches the pools. -/
def evictLRU (st : PoolState) : PoolState :=
  match st.sessionPool with
  | _ :: rest => { st with sessionPool := rest, evictions := st.evictions + 1 }
  | [] =>
      match st.genericPool with
      | _ :: grest => { st with genericPool := grest, evictions := st.evictions + 1 }
      | [] => st

/-- The `while self._generic_pool:` loop of `acquire`: pop from the
left, discarding TTL-expired entries, until a live runner is found. -/
def drainGeneric (now ttl : Nat) : List (Nat × Nat) → Option Nat × List (Nat × Nat)
  | [] => (none, [])
  | (r, t) :: rest =>
      if now - t ≤ ttl then (some r, rest) else drainGeneric now ttl rest

/-- The guard `if self._total_size() >= self._max_size:
await self._evict_lru_unlocked()` shared by `acquire`, `release` and
`pre_warm`. -/
def maybeEvict (st : PoolState) : PoolState :=
  if st.maxSize ≤ totalSize st then evictLRU st else st

/-- The tail of `acquire`: the pool is full ⇒ evict the LRU entry, then
build a fresh runner with the factory. -/
def acquireNew (st : PoolState) : Nat × PoolState :=
  let st1 := maybeEvict st
  (st1.nextRunner, { st1 with nextRunner := st1.nextRunner + 1 })

/-- The part of `acquire` shared by the miss and no-session paths:
drain the generic pool, then fall back to a new runner. -/
def acquireCore (st : PoolState) (now : Nat) : Nat × PoolState :=
  match drainGeneric now st.idleTtl st.genericPool with
  | (some r, gp) => (r, { st with genericPool := gp })
  | (none, gp) => acquireNew { st with genericPool := gp }

/-- `RunnerPool.acquire`. -/
def acquire (st : PoolState) (sessionId : Option String) (now : Nat) : Nat × PoolState :=
  match sessionId with
  | some s =>
      match lookupSession st.sessionPool s with
      | some (r, last) =>
          let st1 := { st with sessionPool := removeSession st.sessionPool s }
          if now - last ≤ st.idleTtl then
            (r, { st1 with hits := st1.hits + 1 })
          else
            acquireCore { st1 with misses := st1.misses + 1 } now
      | none => acquireCore { st with misses := st.misses + 1 } now
  | none => acquireCore st now

/-- `RunnerPool.release`: evict if full; with a session id, pop any
existing entry for the id (discarding a different old runner has no pool
effect) and insert at the MRU end; otherwise append to the generic
FIFO. -/
def release (st : PoolState) (runner : Nat) (sessionId : Option String) (now : Nat) :
    PoolState :=
  let st1 := maybeEvict st
  match sessionId with
  | some s =>
      { st1 with sessionPool := removeSession st1.sessionPool s ++ [(s, runner, now)] }
  | none => { st1 with genericPool := st1.genericPool ++ [(runner, now)] }

/-- One successfully pre-warmed runner (one iteration of
`RunnerPool.pre_warm`): build with the factory, connect, evict if full,
append to the generic pool. -/
def preWarmOne (st : PoolState) (now : Nat) : PoolState :=
  let r := st.nextRunner
  let st1 : PoolState := { st with nextRunner := st.nextRunner + 1 }
  let st2 := maybeEvict st1
  { st2 with genericPool := st2.genericPool ++ [(r, now)] }

theorem evictLRU_nextRunner (st : PoolState) : (evictLRU st).nextRunner = st.nextRunner := by
  rcases st with ⟨sp, gp, h, m, e, n, mx, ttl⟩
  rcases sp with _ | ⟨x, rest⟩ <;> rcases gp with _ | ⟨y, grest⟩ <;> rfl

theorem evictLRU_maxSize (st : PoolState) : (evictLRU st).maxSize = st.maxSize := by
  rcases st with ⟨sp, gp, h, m, e, n, mx, ttl⟩
  rcases sp with _ | ⟨x, rest⟩ <;> rcases gp with _ | ⟨y, grest⟩ <;> rfl

theorem evictLRU_idleTtl (st : PoolState) : (evictLRU st).idleTtl = st.idleTtl := by
  rcases st with ⟨sp, gp, h, m, e, n, mx, ttl⟩
  rcases sp with _ | ⟨x, rest⟩ <;> rcases gp with _ | ⟨y, grest⟩ <;> rfl

theorem evictLRU_hits (st : PoolState) : (evictLRU st).hits = st.hits := by
  rcases st with ⟨sp, gp, h, m, e, n, mx, ttl⟩
  rcases sp with _ | ⟨x, rest⟩ <;> rcases gp with _ | ⟨y, grest⟩ <;> rfl

theorem pooledRunners_evictLRU (st : PoolState) :
    (pooledRunners (evictLRU st)).Sublist (pooledRunners st) := by
  rcases st with ⟨sp, gp, h, m, e, n, mx, ttl⟩
  rcases sp with _ | ⟨x, rest⟩
  · rcases gp with _ | ⟨y, grest⟩
    · exact List.Sublist.refl _
    · simp only [evictLRU, pooledRunners, List.map_nil, List.nil_append, List.map_cons]
      exact (List.sublist_cons_self _ _)
  · simp only [evictLRU, pooledRunners, List.map_cons, List.cons_append]
    exact (List.sublist_cons_self _ _)

theorem sessionKeys_evictLRU (st : PoolState) :
    ((evictLRU st).sessionPool.map Prod.fst).Sublist (st.sessionPool.map Prod.fst) := by
  rcases st with ⟨sp, gp, h, m, e, n, mx, ttl⟩
  rcases sp with _ | ⟨x, rest⟩
  · rcases gp with _ | ⟨y, grest⟩
    · exact List.Sublist.refl _
    · exact List.Sublist.refl _
  · simp only [evictLRU, List.map_cons]
    exact (List.sublist_cons_self _ _)

theorem totalSize_evictLRU (st : PoolState) (h : 0 < totalSize st) :
    totalSize (evictLRU st) = totalSize st - 1 := by
  rcases st with ⟨sp, gp, hh, m, e, n, mx, ttl⟩
  rcases sp with _ | ⟨x, rest⟩
  · rcases gp with _ | ⟨y, grest⟩
    · simp [totalSize] at h
    · simp [evictLRU, totalSize]
  · simp [evictLRU, totalSize]

theorem totalSize_evictLRU_le (st : PoolState) :
    totalSize (evictLRU st) ≤ totalSize st := by
  rcases st with ⟨sp, gp, hh, m, e, n, mx, ttl⟩
  rcases sp with _ | ⟨x, rest⟩
  · rcases gp with _ | ⟨y, grest⟩
    · exact Nat.le_refl _
    · simp [evictLRU, totalSize]
  · simp [evictLRU, totalSize]

theorem lookupSession_mem (sp : List (String × Nat × Nat)) (s : String) (r t : Nat)
    (h : lookupSession sp s = some (r, t)) : (s, r, t) ∈ sp := by
  induction sp with
  | nil => exact absurd h (by simp [lookupSession])
  | cons e rest ih =>
      obtain ⟨s0, r0, t0⟩ := e
      by_cases hs : s0 = s
      · subst hs
        have h1 : r0 = r ∧ t0 = t := by simpa [lookupSession] using h
        rw [← h1.1, ← h1.2]
        exact List.mem_cons_self _ _
      · simp only [lookupSession, if_neg hs] at h
        exact List.mem_cons_of_mem _ (ih h)

theorem removeSession_keys (sp : List (String × Nat × Nat)) (s : String) :
    ∀ e ∈ removeSession sp s, e.1 ≠ s := by
  intro e he
  have h := List.of_mem_filter he
  simpa using h

theorem removeSession_sublist (sp : List (String × Nat × Nat)) (s : String) :
    (removeSession sp s).Sublist sp := List.filter_sublist _

theorem lookupSession_none (sp : List (String × Nat × Nat)) (s : String)
    (h : ∀ e ∈ sp, e.1 ≠ s) : lookupSession sp s = none := by
  induction sp with
  | nil => rfl
  | cons e rest ih =>
      obtain ⟨s0, r0, t0⟩ := e
      have h0 : ¬s0 = s := h (s0, r0, t0) (List.mem_cons_self _ _)
      simp only [lookupSession, if_neg h0]
      exact ih (fun e he => h e (List.mem_cons_of_mem _ he))

theorem lookupSession_append_last (sp : List (String × Nat × Nat)) (s : String) (r t : Nat)
    (h : ∀ e ∈ sp, e.1 ≠ s) :
    lookupSession (sp ++ [(s, r, t)]) s = some (r, t) := by
  induction sp with
  | nil => simp [lookupSession]
  | cons e rest ih =>
      obtain ⟨s0, r0, t0⟩ := e
      have h0 : ¬s0 = s := h (s0, r0, t0) (List.mem_cons_self _ _)
      simp only [List.cons_append, lookupSession, if_neg h0]
      exact ih (fun e he => h e (List.mem_cons_of_mem _ he))

theorem runner_not_in_removeSession (sp : List (String × Nat × Nat)) (s : String) (r t : Nat)
    (hnd : (sp.map (fun e => e.2.1)).Nodup)
    (hlk : lookupSession sp s = some (r, t)) :
    r ∉ (removeSession sp s).map (fun e => e.2.1) := by
  induction sp with
  | nil => simp [lookupSession] at hlk
  | cons e rest ih =>
      obtain ⟨s0, r0, t0⟩ := e
      have hnd2 : (r0 :: rest.map (fun e => e.2.1)).Nodup := by simpa using hnd
      by_cases hs : s0 = s
      · subst hs
        have h1 : r0 = r ∧ t0 = t := by simpa [lookupSession] using hlk
        have h2 : removeSession ((s0, r0, t0) :: rest) s0 = removeSession rest s0 := by
          simp [removeSession, List.filter_cons]
        rw [h2]
        intro hmem
        have hsub : ((removeSession rest s0).map (fun e => e.2.1)).Sublist
            (rest.map (fun e => e.2.1)) := (removeSession_sublist rest s0).map _
        have h3 : r ∈ rest.map (fun e => e.2.1) := hsub.subset hmem
        rw [← h1.1] at h3
        exact (List.nodup_cons.mp hnd2).1 h3
      · simp only [lookupSession, if_neg hs] at hlk
        have h2 : removeSession ((s0, r0, t0) :: rest) s
            = (s0, r0, t0) :: removeSession rest s := by
          simp [removeSession, List.filter_cons, hs]
        rw [h2]
        simp only [List.map_cons]
        intro hmem
        rcases List.mem_cons.mp hmem with h3 | h3
        · have hmem2 : (s, r, t) ∈ rest := lookupSession_mem rest s r t hlk
          have h4 : r ∈ rest.map (fun e => e.2.1) := List.mem_map_of_mem _ hmem2
          rw [h3] at h4
          exact (List.nodup_cons.mp hnd2).1 h4
        · exact ih (List.nodup_cons.mp hnd2).2 hlk h3

theorem drainGeneric_some (now ttl : Nat) (gp gp2 : List (Nat × Nat)) (r : Nat)
    (h : drainGeneric now ttl gp = (some r, gp2)) :
    (r :: gp2.map Prod.fst).Sublist (gp.map Prod.fst) := by
  induction gp generalizing gp2 with
  | nil => simp [drainGeneric] at h
  | cons e rest ih =>
      obtain ⟨r0, t0⟩ := e
      by_cases hc : now - t0 ≤ ttl
      · simp only [drainGeneric, if_pos hc, Prod.mk.injEq] at h
        obtain ⟨h1, h2⟩ := h
        have h1' : r0 = r := Option.some.inj h1
        subst h1'
        subst h2
        exact List.Sublist.refl _
      · simp only [drainGeneric, if_neg hc] at h
        exact (ih _ h).cons _

theorem drainGeneric_none (now ttl : Nat) (gp gp2 : List (Nat × Nat))
    (h : drainGeneric now ttl gp = (none, gp2)) : gp2 = [] := by
  induction gp generalizing gp2 with
  | nil => simpa [drainGeneric] using h.symm
  | cons e rest ih =>
      obtain ⟨r0, t0⟩ := e
      by_cases hc : now - t0 ≤ ttl
      · simp only [drainGeneric, if_pos hc, Prod.mk.injEq] at h
        exact absurd h.1 (by simp)
      · simp only [drainGeneric, if_neg hc] at h
        exact ih _ h

theorem nodup_of_sublist (l1 l2 : List Nat) (h : l1.Sublist l2) (hnd : l2.Nodup) :
    l1.Nodup := hnd.sublist h

theorem maybeEvict_spec (st : PoolState) :
    (maybeEvict st).nextRunner = st.nextRunner ∧
    (maybeEvict st).maxSize = st.maxSize ∧
    (maybeEvict st).idleTtl = st.idleTtl ∧
    (maybeEvict st).hits = st.hits ∧
    (pooledRunners (maybeEvict st)).Sublist (pooledRunners st) ∧
    ((maybeEvict st).sessionPool.map Prod.fst).Sublist (st.sessionPool.map Prod.fst) ∧
    totalSize (maybeEvict st) ≤ totalSize st ∧
    (st.maxSize ≤ totalSize st → 1 ≤ st.maxSize →
      totalSize (maybeEvict st) ≤ totalSize st - 1) := by
  by_cases hfull : st.maxSize ≤ totalSize st
  · have hA : maybeEvict st = evictLRU st := by
      unfold maybeEvict
      exact if_pos hfull
    rw [hA]
    refine ⟨evictLRU_nextRunner st, evictLRU_maxSize st, evictLRU_idleTtl st,
      evictLRU_hits st, pooledRunners_evictLRU st, sessionKeys_evictLRU st,
      totalSize_evictLRU_le st, ?_⟩
    intro h1 h2
    have h3 : 0 < totalSize st := by omega
    rw [totalSize_evictLRU st h3]
  · have hA : maybeEvict st = st := by
      unfold maybeEvict
      exact if_neg hfull
    rw [hA]
    exact ⟨rfl, rfl, rfl, rfl, List.Sublist.refl _, List.Sublist.refl _, Nat.le_refl _,
      fun h1 _ => absurd h1 hfull⟩

theorem acquireNew_spec (st : PoolState) :
    (acquireNew st).1 = st.nextRunner ∧
    (acquireNew st).2.nextRunner = st.nextRunner + 1 ∧
    (acquireNew st).2.maxSize = st.maxSize ∧
    (acquireNew st).2.idleTtl = st.idleTtl ∧
    (pooledRunners (acquireNew st).2).Sublist (pooledRunners st) ∧
    ((acquireNew st).2.sessionPool.map Prod.fst).Sublist (st.sessionPool.map Prod.fst) ∧
    totalSize (acquireNew st).2 ≤ totalSize st := by
  obtain ⟨hnext, hmax, httl, hhits, hpool, hkeys, htot, hx⟩ := maybeEvict_spec st
  have hA : acquireNew st = ((maybeEvict st).nextRunner,
      { maybeEvict st with nextRunner := (maybeEvict st).nextRunner + 1 }) := rfl
  rw [hA]
  refine ⟨hnext, ?_, hmax, httl, hpool, hkeys, htot⟩
  show (maybeEvict st).nextRunner + 1 = st.nextRunner + 1
  rw [hnext]

theorem acquireCore_spec (st : PoolState) (now : Nat) :
    (acquireCore st now).2.maxSize = st.maxSize ∧
    (acquireCore st now).2.idleTtl = st.idleTtl ∧
    st.nextRunner ≤ (acquireCore st now).2.nextRunner ∧
    (pooledRunners (acquireCore st now).2).Sublist (pooledRunners st) ∧
    ((acquireCore st now).2.sessionPool.map Prod.fst).Sublist (st.sessionPool.map Prod.fst) ∧
    totalSize (acquireCore st now).2 ≤ totalSize st ∧
    ((acquireCore st now).1 ∈ pooledRunners st ∨
      ((acquireCore st now).1 = st.nextRunner ∧
        (acquireCore st now).2.nextRunner = st.nextRunner + 1)) := by
  rcases hdg : drainGeneric now st.idleTtl st.genericPool with ⟨o, gp2⟩
  rcases o with _ | r
  · have hgp : gp2 = [] := drainGeneric_none _ _ _ _ hdg
    subst hgp
    have hA : acquireCore st now = acquireNew { st with genericPool := [] } := by
      simp only [acquireCore, hdg]
    rw [hA]
    obtain ⟨hret, hnext, hmax, httl, hpool, hkeys, htot⟩ :=
      acquireNew_spec ({st with genericPool := []})
    have hsub0 : (pooledRunners ({st with genericPool := ([] : List (Nat × Nat))} :
        PoolState)).Sublist (pooledRunners st) :=
      List.Sublist.append (List.Sublist.refl _) (List.nil_sublist _)
    have htot0 : totalSize ({st with genericPool := ([] : List (Nat × Nat))} : PoolState)
        ≤ totalSize st := by
      simp [totalSize]
    refine ⟨hmax, httl, ?_, hpool.trans hsub0, hkeys, htot.trans htot0, Or.inr ⟨hret, hnext⟩⟩
    rw [hnext]
    exact Nat.le_succ _
  · have hA : acquireCore st now = (r, { st with genericPool := gp2 }) := by
      simp only [acquireCore, hdg]
    rw [hA]
    have hsub := drainGeneric_some now st.idleTtl st.genericPool gp2 r hdg
    have hsub2 : (gp2.map Prod.fst).Sublist (st.genericPool.map Prod.fst) :=
      (List.sublist_cons_self r _).trans hsub
    have hlen : gp2.length ≤ st.genericPool.length := by
      have := hsub2.length_le
      simpa using this
    refine ⟨rfl, rfl, Nat.le_refl _, ?_, List.Sublist.refl _, ?_, Or.inl ?_⟩
    · exact List.Sublist.append (List.Sublist.refl _) hsub2
    · show st.sessionPool.length + gp2.length ≤ st.sessionPool.length + st.genericPool.length
      omega
    · exact List.mem_append_right _ (hsub.subset (List.mem_cons_self _ _))

theorem acquire_spec (st : PoolState) (sid : Option String) (now : Nat) :
    (acquire st sid now).2.maxSize = st.maxSize ∧
    (acquire st sid now).2.idleTtl = st.idleTtl ∧
    st.nextRunner ≤ (acquire st sid now).2.nextRunner ∧
    (pooledRunners (acquire st sid now).2).Sublist (pooledRunners st) ∧
    ((acquire st sid now).2.sessionPool.map Prod.fst).Sublist
      (st.sessionPool.map Prod.fst) ∧
    totalSize (acquire st sid now).2 ≤ totalSize st ∧
    ((acquire st sid now).1 ∈ pooledRunners st ∨
      ((acquire st sid now).1 = st.nextRunner ∧
        (acquire st sid now).2.nextRunner = st.nextRunner + 1)) := by
  match sid with
  | none => exact acquireCore_spec st now
  | some s =>
      rcases hlk : lookupSession st.sessionPool s with _ | ⟨r, last⟩
      · have hA : acquire st (some s) now
            = acquireCore { st with misses := st.misses + 1 } now := by
          simp only [acquire, hlk]
        rw [hA]
        exact acquireCore_spec ({st with misses := st.misses + 1}) now
      · by_cases httl : now - last ≤ st.idleTtl
        · have hA : acquire st (some s) now
              = (r, { st with sessionPool := removeSession st.sessionPool s, hits := st.hits + 1 }) := by
            simp only [acquire, hlk, if_pos httl]
          rw [hA]
          refine ⟨rfl, rfl, Nat.le_refl _, ?_, ?_, ?_, Or.inl ?_⟩
          · exact List.Sublist.append ((removeSession_sublist _ _).map _)
              (List.Sublist.refl _)
          · exact (removeSession_sublist _ _).map _
          · have hle := (removeSession_sublist st.sessionPool s).length_le
            show (removeSession st.sessionPool s).length + st.genericPool.length
              ≤ st.sessionPool.length + st.genericPool.length
            omega
          · exact List.mem_append_left _
              (List.mem_map_of_mem _ (lookupSession_mem _ _ _ _ hlk))
        · have hA : acquire st (some s) now
              = acquireCore { st with sessionPool := removeSession st.sessionPool s, misses := st.misses + 1 } now := by
            simp only [acquire, hlk, if_neg httl]
          rw [hA]
          obtain ⟨hmax, httl2, hnext, hpool, hkeys, htot, hret⟩ :=
            acquireCore_spec ({ st with sessionPool := removeSession st.sessionPool s, misses := st.misses + 1 }) now
          have hsubS : ((removeSession st.sessionPool s).map (fun e => e.2.1)).Sublist
              (st.sessionPool.map (fun e => e.2.1)) := (removeSession_sublist _ _).map _
          have hsub0 : (pooledRunners ({ st with sessionPool := removeSession st.sessionPool s, misses := st.misses + 1 } : PoolState)).Sublist (pooledRunners st) :=
            List.Sublist.append hsubS (List.Sublist.refl _)
          refine ⟨hmax, httl2, hnext, hpool.trans hsub0,
            hkeys.trans ((removeSession_sublist _ _).map _), ?_, ?_⟩
          · refine htot.trans ?_
            have hle := (removeSession_sublist st.sessionPool s).length_le
            show (removeSession st.sessionPool s).length + st.genericPool.length
              ≤ st.sessionPool.length + st.genericPool.length
            omega
          · rcases hret with hret | hret
            · exact Or.inl (hsub0.subset hret)
            · exact Or.inr hret

theorem acquireCore_ret_not_pooled (st : PoolState) (now : Nat)
    (hnd : (pooledRunners st).Nodup)
    (hbound : ∀ x ∈ pooledRunners st, x < st.nextRunner) :
    (acquireCore st now).1 ∉ pooledRunners (acquireCore st now).2 := by
  rcases hdg : drainGeneric now st.idleTtl st.genericPool with ⟨o, gp2⟩
  rcases o with _ | r
  · have hgp : gp2 = [] := drainGeneric_none _ _ _ _ hdg
    subst hgp
    simp only [acquireCore, hdg]
    intro hmem
    obtain ⟨hret, hnext, hmax, httl, hpool, hkeys, htot⟩ :=
      acquireNew_spec ({st with genericPool := []})
    rw [hret] at hmem
    have hsub0 : (pooledRunners ({st with genericPool := ([] : List (Nat × Nat))} :
        PoolState)).Sublist (pooledRunners st) :=
      List.Sublist.append (List.Sublist.refl _) (List.nil_sublist _)
    have h2 : st.nextRunner ∈ pooledRunners st := hsub0.subset (hpool.subset hmem)
    exact absurd (hbound _ h2) (lt_irrefl _)
  · simp only [acquireCore, hdg]
    have hsub := drainGeneric_some now st.idleTtl st.genericPool gp2 r hdg
    intro hmem
    rcases List.mem_append.mp hmem with h | h
    · have hr : r ∈ st.genericPool.map Prod.fst := hsub.subset (List.mem_cons_self _ _)
      exact (List.disjoint_of_nodup_append hnd) h hr
    · have hnd2 : (r :: gp2.map Prod.fst).Nodup :=
        nodup_of_sublist _ _ hsub (List.Nodup.of_append_right hnd)
      exact (List.nodup_cons.mp hnd2).1 h

theorem acquire_ret_not_pooled (st : PoolState) (sid : Option String) (now : Nat)
    (hnd : (pooledRunners st).Nodup)
    (hbound : ∀ x ∈ pooledRunners st, x < st.nextRunner) :
    (acquire st sid now).1 ∉ pooledRunners (acquire st sid now).2 := by
  match sid with
  | none => exact acquireCore_ret_not_pooled st now hnd hbound
  | some s =>
      rcases hlk : lookupSession st.sessionPool s with _ | ⟨r, last⟩
      · have hA : acquire st (some s) now
            = acquireCore { st with misses := st.misses + 1 } now := by
          simp only [acquire, hlk]
        rw [hA]
        exact acquireCore_ret_not_pooled ({st with misses := st.misses + 1}) now hnd hbound
      · by_cases httl : now - last ≤ st.idleTtl
        · have hA : acquire st (some s) now
              = (r, { st with sessionPool := removeSession st.sessionPool s, hits := st.hits + 1 }) := by
            simp only [acquire, hlk, if_pos httl]
          rw [hA]
          intro hmem
          rcases List.mem_append.mp hmem with h | h
          · exact runner_not_in_removeSession st.sessionPool s r last
              (List.Nodup.of_append_left hnd) hlk h
          · have hr : r ∈ st.sessionPool.map (fun e => e.2.1) :=
              List.mem_map_of_mem _ (lookupSession_mem _ _ _ _ hlk)
            exact (List.disjoint_of_nodup_append hnd) hr h
        · have hA : acquire st (some s) now
              = acquireCore { st with sessionPool := removeSession st.sessionPool s, misses := st.misses + 1 } now := by
            simp only [acquire, hlk, if_neg httl]
          rw [hA]
          have hsub0 : (pooledRunners ({ st with sessionPool := removeSession st.sessionPool s, misses := st.misses + 1 } : PoolState)).Sublist (pooledRunners st) :=
            List.Sublist.append ((removeSession_sublist _ _).map _) (List.Sublist.refl _)
          apply acquireCore_ret_not_pooled
          · exact nodup_of_sublist _ _ hsub0 hnd
          · intro x hx
            exact hbound x (hsub0.subset hx)

theorem release_some_eq (st : PoolState) (r : Nat) (s : String) (now : Nat) :
    release st r (some s) now
      = { maybeEvict st with
          sessionPool := removeSession (maybeEvict st).sessionPool s ++ [(s, r, now)] } := rfl

theorem release_none_eq (st : PoolState) (r : Nat) (now : Nat) :
    release st r none now
      = { maybeEvict st with
          genericPool := (maybeEvict st).genericPool ++ [(r, now)] } := rfl

theorem preWarmOne_eq_release (st : PoolState) (now : Nat) :
    preWarmOne st now
      = release { st with nextRunner := st.nextRunner + 1 } st.nextRunner none now := rfl

theorem release_inv (st : PoolState) (r : Nat) (sid : Option String) (now : Nat)
    (hnd : (pooledRunners st).Nodup)
    (hbound : ∀ x ∈ pooledRunners st, x < st.nextRunner)
    (hkeys : (st.sessionPool.map Prod.fst).Nodup)
    (hr1 : r ∉ pooledRunners st) (hr2 : r < st.nextRunner)
    (hmax : 1 ≤ st.maxSize) (hsz : totalSize st ≤ st.maxSize) :
    (pooledRunners (release st r sid now)).Nodup ∧
    (∀ x ∈ pooledRunners (release st r sid now), x = r ∨ x ∈ pooledRunners st) ∧
    (∀ x ∈ pooledRunners (release st r sid now), x < (release st r sid now).nextRunner) ∧
    ((release st r sid now).sessionPool.map Prod.fst).Nodup ∧
    (release st r sid now).maxSize = st.maxSize ∧
    (release st r sid now).nextRunner = st.nextRunner ∧
    totalSize (release st r sid now) ≤ st.maxSize := by
  obtain ⟨hnext, hmaxB, httlB, hhitsB, hpoolB, hkeysB, htotB, hfullB⟩ := maybeEvict_spec st
  have hndB : (pooledRunners (maybeEvict st)).Nodup := hnd.sublist hpoolB
  have hndBs : ((maybeEvict st).sessionPool.map (fun e => e.2.1)).Nodup :=
    List.Nodup.of_append_left hndB
  have hndBg : ((maybeEvict st).genericPool.map Prod.fst).Nodup :=
    List.Nodup.of_append_right hndB
  have hdisjB : ((maybeEvict st).sessionPool.map (fun e => e.2.1)).Disjoint
      ((maybeEvict st).genericPool.map Prod.fst) := List.disjoint_of_nodup_append hndB
  have hkeysBn : ((maybeEvict st).sessionPool.map Prod.fst).Nodup := hkeys.sublist hkeysB
  have htotCase : totalSize (maybeEvict st) + 1 ≤ st.maxSize := by
    by_cases hfull : st.maxSize ≤ totalSize st
    · have := hfullB hfull hmax
      omega
    · omega
  match sid with
  | some s =>
      rw [release_some_eq]
      have hsubA : ((removeSession (maybeEvict st).sessionPool s).map
          (fun e => e.2.1)).Sublist ((maybeEvict st).sessionPool.map (fun e => e.2.1)) :=
        (removeSession_sublist _ _).map _
      have hmemA : ∀ x ∈ (removeSession (maybeEvict st).sessionPool s).map
          (fun e => e.2.1), x ∈ pooledRunners st := by
        intro x hx
        exact hpoolB.subset (List.mem_append_left _ (hsubA.subset hx))
      have hmemG : ∀ x ∈ (maybeEvict st).genericPool.map Prod.fst,
          x ∈ pooledRunners st := by
        intro x hx
        exact hpoolB.subset (List.mem_append_right _ hx)
      have hpooled : pooledRunners ({ maybeEvict st with
          sessionPool := removeSession (maybeEvict st).sessionPool s ++ [(s, r, now)] } :
            PoolState)
          = ((removeSession (maybeEvict st).sessionPool s).map (fun e => e.2.1) ++ [r])
            ++ (maybeEvict st).genericPool.map Prod.fst := by
        simp [pooledRunners]
      refine ⟨?_, ?_, ?_, ?_, hmaxB, hnext, ?_⟩
      · rw [hpooled, List.nodup_append]
        refine ⟨?_, hndBg, ?_⟩
        · rw [List.nodup_append]
          refine ⟨hndBs.sublist hsubA, List.nodup_singleton r, ?_⟩
          intro a ha hmem
          rw [List.mem_singleton] at hmem
          subst hmem
          exact hr1 (hmemA a ha)
        · intro a ha hmemG2
          rcases List.mem_append.mp ha with h | h
          · exact hdisjB (hsubA.subset h) hmemG2
          · rw [List.mem_singleton] at h
            subst h
            exact hr1 (hmemG a hmemG2)
      · rw [hpooled]
        intro x hx
        rcases List.mem_append.mp hx with h | h
        · rcases List.mem_append.mp h with h2 | h2
          · exact Or.inr (hmemA x h2)
          · rw [List.mem_singleton] at h2
            exact Or.inl h2
        · exact Or.inr (hmemG x h)
      · rw [hpooled]
        intro x hx
        show x < (maybeEvict st).nextRunner
        rw [hnext]
        rcases List.mem_append.mp hx with h | h
        · rcases List.mem_append.mp h with h2 | h2
          · exact hbound x (hmemA x h2)
          · rw [List.mem_singleton] at h2
            subst h2
            exact hr2
        · exact hbound x (hmemG x h)
      · show ((removeSession (maybeEvict st).sessionPool s ++ [(s, r, now)]).map
            Prod.fst).Nodup
        rw [List.map_append, List.nodup_append]
        refine ⟨hkeysBn.sublist ((removeSession_sublist _ _).map _),
          List.nodup_singleton s, ?_⟩
        intro a ha hmem
        rw [List.map_singleton, List.mem_singleton] at hmem
        subst hmem
        rcases List.mem_map.mp ha with ⟨e, he, hea⟩
        exact removeSession_keys _ _ e he (by rw [hea])
      · show (removeSession (maybeEvict st).sessionPool s ++ [(s, r, now)]).length
            + (maybeEvict st).genericPool.length ≤ st.maxSize
        have h1 : (removeSession (maybeEvict st).sessionPool s).length
            ≤ (maybeEvict st).sessionPool.length := (removeSession_sublist _ _).length_le
        have h2 : totalSize (maybeEvict st)
            = (maybeEvict st).sessionPool.length + (maybeEvict st).genericPool.length := rfl
        rw [List.length_append]
        simp only [List.length_singleton]
        omega
  | none =>
      rw [release_none_eq]
      have hpooled : pooledRunners ({ maybeEvict st with
          genericPool := (maybeEvict st).genericPool ++ [(r, now)] } : PoolState)
          = (maybeEvict st).sessionPool.map (fun e => e.2.1)
            ++ ((maybeEvict st).genericPool.map Prod.fst ++ [r]) := by
        simp [pooledRunners]
      have hmemS : ∀ x ∈ (maybeEvict st).sessionPool.map (fun e => e.2.1),
          x ∈ pooledRunners st := by
        intro x hx
        exact hpoolB.subset (List.mem_append_left _ hx)
      have hmemG : ∀ x ∈ (maybeEvict st).genericPool.map Prod.fst,
          x ∈ pooledRunners st := by
        intro x hx
        exact hpoolB.subset (List.mem_append_right _ hx)
      refine ⟨?_, ?_, ?_, hkeysBn, hmaxB, hnext, ?_⟩
      · rw [hpooled, List.nodup_append]
        refine ⟨hndBs, ?_, ?_⟩
        · rw [List.nodup_append]
          refine ⟨hndBg, List.nodup_singleton r, ?_⟩
          intro a ha hmem
          rw [List.mem_singleton] at hmem
          subst hmem
          exact hr1 (hmemG a ha)
        · intro a ha hmem
          rcases List.mem_append.mp hmem with h | h
          · exact hdisjB ha h
          · rw [List.mem_singleton] at h
            subst h
            exact hr1 (hmemS a ha)
      · rw [hpooled]
        intro x hx
        rcases List.mem_append.mp hx with h | h
        · exact Or.inr (hmemS x h)
        · rcases List.mem_append.mp h with h2 | h2
          · exact Or.inr (hmemG x h2)
          · rw [List.mem_singleton] at h2
            exact Or.inl h2
      · rw [hpooled]
        intro x hx
        show x < (maybeEvict st).nextRunner
        rw [hnext]
        rcases List.mem_append.mp hx with h | h
        · exact hbound x (hmemS x h)
        · rcases List.mem_append.mp h with h2 | h2
          · exact hbound x (hmemG x h2)
          · rw [List.mem_singleton] at h2
            subst h2
            exact hr2
      · show (maybeEvict st).sessionPool.length
            + ((maybeEvict st).genericPool ++ [(r, now)]).length ≤ st.maxSize
        have h2 : totalSize (maybeEvict st)
            = (maybeEvict st).sessionPool.length + (maybeEvict st).genericPool.length := rfl
        rw [List.length_append]
        simp only [List.length_singleton]
        omega

theorem preWarm_inv (st : PoolState) (now : Nat)
    (hnd : (pooledRunners st).Nodup)
    (hbound : ∀ x ∈ pooledRunners st, x < st.nextRunner)
    (hkeys : (st.sessionPool.map Prod.fst).Nodup)
    (hmax : 1 ≤ st.maxSize) (hsz : totalSize st ≤ st.maxSize) :
    (pooledRunners (preWarmOne st now)).Nodup ∧
    (∀ x ∈ pooledRunners (preWarmOne st now), x = st.nextRunner ∨ x ∈ pooledRunners st) ∧
    (∀ x ∈ pooledRunners (preWarmOne st now), x < (preWarmOne st now).nextRunner) ∧
    ((preWarmOne st now).sessionPool.map Prod.fst).Nodup ∧
    (preWarmOne st now).maxSize = st.maxSize ∧
    (preWarmOne st now).nextRunner = st.nextRunner + 1 ∧
    totalSize (preWarmOne st now) ≤ st.maxSize := by
  rw [preWarmOne_eq_release]
  have h := release_inv { st with nextRunner := st.nextRunner + 1 } st.nextRunner none now
    hnd (fun x hx => Nat.lt_succ_of_lt (hbound x hx)) hkeys
    (fun hmem => absurd (hbound _ hmem) (lt_irrefl _)) (Nat.lt_succ_self _) hmax hsz
  exact ⟨h.1, h.2.1, h.2.2.1, h.2.2.2.1, h.2.2.2.2.1, h.2.2.2.2.2.1, h.2.2.2.2.2.2⟩

/-- Positional lookup into the outstanding-runner list. -/
def nth : List Nat → Nat → Option Nat
  | [], _ => none
  | x :: _, 0 => some x
  | _ :: rest, n + 1 => nth rest n

/-- Removal of the outstanding runner at a position. -/
def removeIdx : List Nat → Nat → List Nat
  | [], _ => []
  | _ :: rest, 0 => rest
  | x :: rest, n + 1 => x :: removeIdx rest n

theorem nth_mem (l : List Nat) (i r : Nat) (h : nth l i = some r) : r ∈ l := by
  induction l generalizing i with
  | nil => simp [nth] at h
  | cons x rest ih =>
      match i with
      | 0 =>
          have : x = r := by simpa [nth] using h
          rw [← this]
          exact List.mem_cons_self _ _
      | n + 1 =>
          simp only [nth] at h
          exact List.mem_cons_of_mem _ (ih n h)

theorem removeIdx_sublist (l : List Nat) (i : Nat) : (removeIdx l i).Sublist l := by
  induction l generalizing i with
  | nil => exact List.Sublist.refl _
  | cons x rest ih =>
      match i with
      | 0 => exact List.sublist_cons_self _ _
      | n + 1 => exact (ih n).cons₂ _

theorem not_mem_removeIdx (l : List Nat) (i r : Nat) (hnd : l.Nodup)
    (h : nth l i = some r) : r ∉ removeIdx l i := by
  induction l generalizing i with
  | nil => simp [nth] at h
  | cons x rest ih =>
      match i with
      | 0 =>
          have hx : x = r := by simpa [nth] using h
          subst hx
          show x ∉ rest
          exact (List.nodup_cons.mp hnd).1
      | n + 1 =>
          simp only [nth] at h
          show r ∉ x :: removeIdx rest n
          intro hmem
          rcases List.mem_cons.mp hmem with h2 | h2
          · have : r ∈ rest := nth_mem rest n r h
            rw [h2] at this
            exact (List.nodup_cons.mp hnd).1 this
          · exact ih n (List.nodup_cons.mp hnd).2 h h2

/-- One client-visible pool operation: `acquire`, `release`/discard of a
previously acquired runner (named by its position in the outstanding
list), one `pre_warm` iteration, or a public `evict_lru`. -/
inductive Op where
  | acquire (sessionId : Option String) (now : Nat)
  | release (idx : Nat) (sessionId : Option String) (now : Nat)
  | discard (idx : Nat)
  | preWarm (now : Nat)
  | evict
deriving DecidableEq

/-- The pool together with the runners currently held by callers
(returned by `acquire`, not yet released or discarded). -/
structure Config where
  pool : PoolState
  outstanding : List Nat
deriving DecidableEq

def initConfig (maxSize idleTtl : Nat) : Config := ⟨initPool maxSize idleTtl, []⟩

/-- One step of the pool protocol: `release`/`discard` of a runner the
caller does not hold is a no-op (the adapter only ever releases the
runner it acquired). -/
def step (c : Config) (op : Op) : Config :=
  match op with
  | .acquire sid now =>
      ⟨(acquire c.pool sid now).2, (acquire c.pool sid now).1 :: c.outstanding⟩
  | .release idx sid now =>
      match nth c.outstanding idx with
      | some r => ⟨release c.pool r sid now, removeIdx c.outstanding idx⟩
      | none => c
  | .discard idx =>
      match nth c.outstanding idx with
      | some _ => ⟨c.pool, removeIdx c.outstanding idx⟩
      | none => c
  | .preWarm now => ⟨preWarmOne c.pool now, c.outstanding⟩
  | .evict => ⟨evictLRU c.pool, c.outstanding⟩

def runOps (c : Config) : List Op → Config
  | [] => c
  | op :: ops => runOps (step c op) ops

/-- The pool invariant carried through every trace. -/
def Inv (mx : Nat) (c : Config) : Prop :=
  (c.outstanding ++ pooledRunners c.pool).Nodup ∧
  (∀ x ∈ c.outstanding ++ pooledRunners c.pool, x < c.pool.nextRunner) ∧
  (c.pool.sessionPool.map Prod.fst).Nodup ∧
  c.pool.maxSize = mx ∧
  totalSize c.pool ≤ mx

theorem step_inv (mx : Nat) (c : Config) (op : Op) (hmx : 1 ≤ mx) (h : Inv mx c) :
    Inv mx (step c op) := by
  obtain ⟨hnd, hbound, hkeys, hmaxeq, hsz⟩ := h
  have hndOut : c.outstanding.Nodup := List.Nodup.of_append_left hnd
  have hndPool : (pooledRunners c.pool).Nodup := List.Nodup.of_append_right hnd
  have hdisj : c.outstanding.Disjoint (pooledRunners c.pool) :=
    List.disjoint_of_nodup_append hnd
  have hboundPool : ∀ x ∈ pooledRunners c.pool, x < c.pool.nextRunner :=
    fun x hx => hbound x (List.mem_append_right _ hx)
  have hboundOut : ∀ x ∈ c.outstanding, x < c.pool.nextRunner :=
    fun x hx => hbound x (List.mem_append_left _ hx)
  have hmax1 : 1 ≤ c.pool.maxSize := by rw [hmaxeq]; exact hmx
  have hsz1 : totalSize c.pool ≤ c.pool.maxSize := by rw [hmaxeq]; exact hsz
  match op with
  | .acquire sid now =>
      obtain ⟨hmax2, httl2, hnext2, hpool2, hkeys2, htot2, hret⟩ := acquire_spec c.pool sid now
      have hnp := acquire_ret_not_pooled c.pool sid now hndPool hboundPool
      have hsubAll : (c.outstanding ++ pooledRunners (acquire c.pool sid now).2).Sublist
          (c.outstanding ++ pooledRunners c.pool) := hpool2.append_left _
      refine ⟨?_, ?_, hkeys.sublist hkeys2, hmax2.trans hmaxeq, htot2.trans hsz⟩
      · show (((acquire c.pool sid now).1 :: c.outstanding)
            ++ pooledRunners (acquire c.pool sid now).2).Nodup
        rw [List.cons_append, List.nodup_cons]
        refine ⟨?_, hnd.sublist hsubAll⟩
        intro hmem
        rcases List.mem_append.mp hmem with hm | hm
        · rcases hret with hin | ⟨heq, _⟩
          · exact hdisj hm hin
          · have := hboundOut _ hm
            rw [heq] at this
            exact absurd this (lt_irrefl _)
        · exact hnp hm
      · intro x hx
        show x < (acquire c.pool sid now).2.nextRunner
        have hx2 : x ∈ ((acquire c.pool sid now).1 :: c.outstanding)
            ++ pooledRunners (acquire c.pool sid now).2 := hx
        rw [List.cons_append] at hx2
        rcases List.mem_cons.mp hx2 with hx1 | hx1
        · subst hx1
          rcases hret with hin | ⟨heq, heq2⟩
          · exact Nat.lt_of_lt_of_le (hboundPool _ hin) hnext2
          · rw [heq, heq2]
            exact Nat.lt_succ_self _
        · rcases List.mem_append.mp hx1 with hm | hm
          · exact Nat.lt_of_lt_of_le (hboundOut _ hm) hnext2
          · exact hboundPool _ (hpool2.subset hm) |>.trans_le hnext2
  | .release idx sid now =>
      rcases hn : nth c.outstanding idx with _ | r
      · simp only [step, hn]
        exact ⟨hnd, hbound, hkeys, hmaxeq, hsz⟩
      · simp only [step, hn]
        have hrOut : r ∈ c.outstanding := nth_mem _ _ _ hn
        have hrPool : r ∉ pooledRunners c.pool := fun hmem => hdisj hrOut hmem
        have hrLt : r < c.pool.nextRunner := hboundOut r hrOut
        obtain ⟨hA, hB, hC, hD, hE, hF, hG⟩ := release_inv c.pool r sid now
          hndPool hboundPool hkeys hrPool hrLt hmax1 hsz1
        refine ⟨?_, ?_, hD, hE.trans hmaxeq, hmaxeq ▸ hG⟩
        · show (removeIdx c.outstanding idx
              ++ pooledRunners (release c.pool r sid now)).Nodup
          rw [List.nodup_append]
          refine ⟨hndOut.sublist (removeIdx_sublist _ _), hA, ?_⟩
          intro a ha hmem
          rcases hB a hmem with h2 | h2
          · subst h2
            exact not_mem_removeIdx _ _ _ hndOut hn ha
          · exact hdisj ((removeIdx_sublist _ _).subset ha) h2
        · intro x hx
          show x < (release c.pool r sid now).nextRunner
          rcases List.mem_append.mp hx with hm | hm
          · rw [hF]
            exact hboundOut x ((removeIdx_sublist _ _).subset hm)
          · exact hC x hm
  | .discard idx =>
      rcases hn : nth c.outstanding idx with _ | r
      · simp only [step, hn]
        exact ⟨hnd, hbound, hkeys, hmaxeq, hsz⟩
      · simp only [step, hn]
        have hsub : (removeIdx c.outstanding idx ++ pooledRunners c.pool).Sublist
            (c.outstanding ++ pooledRunners c.pool) :=
          List.Sublist.append (removeIdx_sublist _ _) (List.Sublist.refl _)
        exact ⟨hnd.sublist hsub, fun x hx => hbound x (hsub.subset hx), hkeys, hmaxeq, hsz⟩
  | .preWarm now =>
      obtain ⟨hA, hB, hC, hD, hE, hF, hG⟩ := preWarm_inv c.pool now
        hndPool hboundPool hkeys hmax1 hsz1
      refine ⟨?_, ?_, hD, hE.trans hmaxeq, hmaxeq ▸ hG⟩
      · show (c.outstanding ++ pooledRunners (preWarmOne c.pool now)).Nodup
        rw [List.nodup_append]
        refine ⟨hndOut, hA, ?_⟩
        intro a ha hmem
        rcases hB a hmem with h2 | h2
        · subst h2
          exact absurd (hboundOut _ ha) (lt_irrefl _)
        · exact hdisj ha h2
      · intro x hx
        show x < (preWarmOne c.pool now).nextRunner
        rcases List.mem_append.mp hx with hm | hm
        · rw [hF]
          exact Nat.lt_succ_of_lt (hboundOut x hm)
        · exact hC x hm
  | .evict =>
      have hsub : (c.outstanding ++ pooledRunners (evictLRU c.pool)).Sublist
          (c.outstanding ++ pooledRunners c.pool) :=
        (pooledRunners_evictLRU c.pool).append_left _
      refine ⟨hnd.sublist hsub, ?_, hkeys.sublist (sessionKeys_evictLRU _),
        (evictLRU_maxSize _).trans hmaxeq, (totalSize_evictLRU_le _).trans hsz⟩
      intro x hx
      show x < (evictLRU c.pool).nextRunner
      rw [evictLRU_nextRunner]
      exact hbound x (hsub.subset hx)

theorem initConfig_inv (mx ttl : Nat) : Inv mx (initConfig mx ttl) := by
  refine ⟨List.nodup_nil, ?_, List.nodup_nil, rfl, ?_⟩
  · intro x hx
    exact absurd hx (List.not_mem_nil x)
  · show 0 + 0 ≤ mx
    omega

theorem runOps_inv (mx : Nat) (ops : List Op) (c : Config) (hmx : 1 ≤ mx)
    (h : Inv mx c) : Inv mx (runOps c ops) := by
  induction ops generalizing c with
  | nil => exact h
  | cons op rest ih => exact ih _ (step_inv mx c op hmx h)

end RunnerPool

namespace EngineRun

/-- The fields of the runner's final result that decide the pool return
policy in `SoulEngineAdapter.execute.run_claude`. -/
structure RunResult where
  success : Bool
  isError : Bool
  sessionId : Option String
deriving DecidableEq

open RunnerPool in
/-- `run_claude` with a pool attached: acquire a runner for the resumed
session; on a clean result (`result.success and not result.is_error`)
release it back under the result's session id; on an error result or a
raised exception `_discard` it — `_discard` closes the runner and never
touches the pools. -/
def runClaude (st : PoolState) (resume : Option String) (res : RunResult)
    (raised : Bool) (tAcq tRel : Nat) : Nat × PoolState :=
  let p := RunnerPool.acquire st resume tAcq
  if raised = false ∧ res.success = true ∧ res.isError = false then
    (p.1, RunnerPool.release p.2 p.1 res.sessionId tRel)
  else
    (p.1, p.2)

end EngineRun

open RunnerPool in
/-- C2 counterexample: with `max_size = 0`, acquiring a runner and
releasing it leaves one idle runner in the pool, so
`session_count + generic_count ≤ max_size` fails. -/
theorem c2_counterexample_max_size_zero :
    ¬ (totalSize (runOps (initConfig 0 300)
          [Op.acquire none 0, Op.release 0 none 0]).pool
        ≤ (runOps (initConfig 0 300)
          [Op.acquire none 0, Op.release 0 none 0]).pool.maxSize) := by decide

open RunnerPool in
/-- C2 (amended): for every pool with `max_size ≥ 1` and every sequence
of acquire / release / pre-warm / evict operations in which a caller
releases or discards only runners it acquired, at every reachable state
`session_count + generic_count ≤ max_size`, no runner is in both
sub-pools at once, every outstanding acquired runner is absent from both
sub-pools until its release re-inserts it or it is discarded, and any
`acquire` returns a runner that is absent from both sub-pools.  With
`max_size = 0` the size bound fails after one release. -/
theorem c2_amended_pool_invariants (mx ttl : Nat) (ops : List Op) (hmx : 1 ≤ mx) :
    totalSize (runOps (initConfig mx ttl) ops).pool ≤ mx ∧
    (pooledRunners (runOps (initConfig mx ttl) ops).pool).Nodup ∧
    (∀ r ∈ (runOps (initConfig mx ttl) ops).pool.sessionPool.map (fun e => e.2.1),
      r ∉ (runOps (initConfig mx ttl) ops).pool.genericPool.map Prod.fst) ∧
    (∀ r ∈ (runOps (initConfig mx ttl) ops).outstanding,
      r ∉ pooledRunners (runOps (initConfig mx ttl) ops).pool) ∧
    (∀ sid now,
      (acquire (runOps (initConfig mx ttl) ops).pool sid now).1
        ∉ pooledRunners (acquire (runOps (initConfig mx ttl) ops).pool sid now).2) := by
  obtain ⟨hnd, hbound, hkeys, hmaxeq, hsz⟩ :=
    runOps_inv mx ops (initConfig mx ttl) hmx (initConfig_inv mx ttl)
  have hndPool : (pooledRunners (runOps (initConfig mx ttl) ops).pool).Nodup :=
    List.Nodup.of_append_right hnd
  have hboundPool : ∀ x ∈ pooledRunners (runOps (initConfig mx ttl) ops).pool,
      x < (runOps (initConfig mx ttl) ops).pool.nextRunner :=
    fun x hx => hbound x (List.mem_append_right _ hx)
  refine ⟨hsz, hndPool, ?_, ?_, ?_⟩
  · intro r hr
    exact List.disjoint_of_nodup_append hndPool hr
  · intro r hr
    exact List.disjoint_of_nodup_append hnd hr
  · intro sid now
    exact acquire_ret_not_pooled _ sid now hndPool hboundPool

/-- Witness for C2 (amended) at `max_size = 2` and the trace of spec
scenario 6 (fill with two session releases, then acquire a third
session). -/
theorem c2_amended_pool_invariants_witness :
    1 ≤ 2 ∧
    (RunnerPool.totalSize (RunnerPool.runOps (RunnerPool.initConfig 2 300)
        [RunnerPool.Op.acquire (some "A") 0, RunnerPool.Op.release 0 (some "A") 1,
         RunnerPool.Op.acquire (some "B") 2, RunnerPool.Op.release 0 (some "B") 3,
         RunnerPool.Op.acquire (some "C") 4]).pool ≤ 2) :=
  ⟨by decide, (c2_amended_pool_invariants 2 300
    [RunnerPool.Op.acquire (some "A") 0, RunnerPool.Op.release 0 (some "A") 1,
     RunnerPool.Op.acquire (some "B") 2, RunnerPool.Op.release 0 (some "B") 3,
     RunnerPool.Op.acquire (some "C") 4] (by decide)).1⟩

open RunnerPool in
/-- C6: if `release(r, s)` is the most recent release with session id `s`
(and no eviction or TTL expiry intervenes), the next `acquire(s)` within
the idle TTL returns `r`, removes it from the session pool, and
increments the hit counter by exactly one. -/
theorem c6_lru_hit_after_release (st : PoolState) (r : Nat) (s : String)
    (tRel now : Nat) (h : now - tRel ≤ st.idleTtl) :
    (acquire (release st r (some s) tRel) (some s) now).1 = r ∧
    lookupSession (acquire (release st r (some s) tRel) (some s) now).2.sessionPool s
      = none ∧
    (acquire (release st r (some s) tRel) (some s) now).2.hits = st.hits + 1 := by
  obtain ⟨hnext, hmaxB, httlB, hhitsB, hpoolB, hkeysB, htotB, hfullB⟩ := maybeEvict_spec st
  have httlR : (release st r (some s) tRel).idleTtl = st.idleTtl := by
    rw [release_some_eq]
    exact httlB
  have hhitsR : (release st r (some s) tRel).hits = st.hits := by
    rw [release_some_eq]
    exact hhitsB
  have hlk : lookupSession (release st r (some s) tRel).sessionPool s = some (r, tRel) := by
    rw [release_some_eq]
    exact lookupSession_append_last _ _ _ _ (removeSession_keys _ _)
  have hcond : now - tRel ≤ (release st r (some s) tRel).idleTtl := by
    rw [httlR]
    exact h
  have hA : acquire (release st r (some s) tRel) (some s) now
      = (r, { release st r (some s) tRel with
              sessionPool := removeSession (release st r (some s) tRel).sessionPool s,
              hits := (release st r (some s) tRel).hits + 1 }) := by
    simp only [acquire, hlk, if_pos hcond]
  rw [hA]
  refine ⟨rfl, ?_, ?_⟩
  · exact lookupSession_none _ _ (removeSession_keys _ _)
  · show (release st r (some s) tRel).hits + 1 = st.hits + 1
    rw [hhitsR]

/-- Witness for C6 at a fresh pool: release runner 7 under session "S" at
time 0, acquire "S" at time 10 (TTL 300). -/
theorem c6_lru_hit_after_release_witness :
    ((10 : Nat) - 0 ≤ (RunnerPool.initPool 5 300).idleTtl) ∧
    ((RunnerPool.acquire (RunnerPool.release (RunnerPool.initPool 5 300) 7 (some "S") 0)
        (some "S") 10).1 = 7 ∧
      RunnerPool.lookupSession (RunnerPool.acquire
        (RunnerPool.release (RunnerPool.initPool 5 300) 7 (some "S") 0)
        (some "S") 10).2.sessionPool "S" = none ∧
      (RunnerPool.acquire (RunnerPool.release (RunnerPool.initPool 5 300) 7 (some "S") 0)
        (some "S") 10).2.hits = (RunnerPool.initPool 5 300).hits + 1) :=
  ⟨by decide, c6_lru_hit_after_release (RunnerPool.initPool 5 300) 7 "S" 0 10 (by decide)⟩

open RunnerPool EngineRun in
/-- C5: with a pool attached, a clean run releases the acquired runner
back under the result's session id (it is then the entry for that
session, or the newest generic entry when the result has no session id);
a run that reports an error, has `is_error`, or raises, discards the
runner: it is in neither sub-pool afterwards and no later `acquire` — in
particular with the run's session id — can return the same runner
object. -/
theorem c5_discard_on_error (st : PoolState) (resume : Option String) (res : RunResult)
    (raised : Bool) (tAcq tRel : Nat)
    (hnd : (pooledRunners st).Nodup)
    (hbound : ∀ x ∈ pooledRunners st, x < st.nextRunner) :
    ((raised = false ∧ res.success = true ∧ res.isError = false) →
      (∀ s, res.sessionId = some s →
        lookupSession (runClaude st resume res raised tAcq tRel).2.sessionPool s
          = some ((runClaude st resume res raised tAcq tRel).1, tRel)) ∧
      (res.sessionId = none →
        (runClaude st resume res raised tAcq tRel).2.genericPool.getLast?
          = some ((runClaude st resume res raised tAcq tRel).1, tRel))) ∧
    ((raised = true ∨ res.success = false ∨ res.isError = true) →
      (runClaude st resume res raised tAcq tRel).1
        ∉ pooledRunners (runClaude st resume res raised tAcq tRel).2 ∧
      (∀ sid2 now2,
        (acquire (runClaude st resume res raised tAcq tRel).2 sid2 now2).1
          ≠ (runClaude st resume res raised tAcq tRel).1)) := by
  constructor
  · intro hok
    have hA : runClaude st resume res raised tAcq tRel
        = ((acquire st resume tAcq).1,
           release (acquire st resume tAcq).2 (acquire st resume tAcq).1
             res.sessionId tRel) := by
      simp only [runClaude, if_pos hok]
    rw [hA]
    constructor
    · intro s hs
      rw [hs, release_some_eq]
      exact lookupSession_append_last _ _ _ _ (removeSession_keys _ _)
    · intro hs
      rw [hs, release_none_eq]
      show ((maybeEvict (acquire st resume tAcq).2).genericPool
          ++ [((acquire st resume tAcq).1, tRel)]).getLast? = _
      rw [List.getLast?_concat]
  · intro hfail
    have hA : runClaude st resume res raised tAcq tRel
        = ((acquire st resume tAcq).1, (acquire st resume tAcq).2) := by
      have hnc : ¬(raised = false ∧ res.success = true ∧ res.isError = false) := by
        rcases hfail with h1 | h1 | h1 <;> intro hc <;> rw [h1] at hc <;>
          first
            | exact Bool.noConfusion hc.1
            | exact Bool.noConfusion hc.2.1
            | exact Bool.noConfusion hc.2.2
      simp only [runClaude, if_neg hnc]
    rw [hA]
    have hnp := acquire_ret_not_pooled st resume tAcq hnd hbound
    refine ⟨hnp, ?_⟩
    intro sid2 now2
    obtain ⟨hmax2, httl2, hnext2, hpool2, hkeys2, htot2, hret2⟩ :=
      acquire_spec (acquire st resume tAcq).2 sid2 now2
    obtain ⟨hmax1, httl1, hnext1, hpool1, hkeys1, htot1, hret1⟩ :=
      acquire_spec st resume tAcq
    intro heq
    have heq2 : (acquire (acquire st resume tAcq).2 sid2 now2).1
        = (acquire st resume tAcq).1 := heq
    rcases hret2 with hin | ⟨hfr, _⟩
    · rw [heq2] at hin
      exact hnp hin
    · have hlt : (acquire st resume tAcq).1 < (acquire st resume tAcq).2.nextRunner := by
        rcases hret1 with hin1 | ⟨hfr1, hnx1⟩
        · exact Nat.lt_of_lt_of_le (hbound _ hin1) hnext1
        · rw [hfr1, hnx1]
          exact Nat.lt_succ_self _
      rw [← heq2, hfr] at hlt
      exact absurd hlt (lt_irrefl _)

open RunnerPool EngineRun in
/-- Witness for C5 at a fresh pool and a failing run
(`success = false`). -/
theorem c5_discard_on_error_witness :
    (pooledRunners (initPool 5 300)).Nodup ∧
    (∀ x ∈ pooledRunners (initPool 5 300), x < (initPool 5 300).nextRunner) ∧
    (((true : Bool) = true ∨ (false : Bool) = false ∨ (false : Bool) = true) →
      (runClaude (initPool 5 300) (some "S") ⟨false, false, some "S"⟩ true 0 1).1
        ∉ pooledRunners (runClaude (initPool 5 300) (some "S")
            ⟨false, false, some "S"⟩ true 0 1).2 ∧
      (∀ sid2 now2,
        (acquire (runClaude (initPool 5 300) (some "S")
            ⟨false, false, some "S"⟩ true 0 1).2 sid2 now2).1
          ≠ (runClaude (initPool 5 300) (some "S") ⟨false, false, some "S"⟩ true 0 1).1)) :=
  ⟨by decide, by decide,
    (c5_discard_on_error (initPool 5 300) (some "S") ⟨false, false, some "S"⟩ true 0 1
      (by decide) (by decide)).2⟩

namespace PathSafety

/-- Python `re`'s word class `\w` plus `.` and `-`, i.e. the characters
`[\w.\-]` kept by `_sanitize_path_component` (modelled on ASCII; a
non-ASCII word character is replaced in the model, which only makes the
sanitizer stricter and does not affect the containment property). -/
def allowedChar (c : Char) : Bool :=
  c.isAlphanum || c = '_' || c = '.' || c = '-'

/-- `EventStore._sanitize_path_component`:
`re.sub(r"[^\w.\-]", "_", value)`. -/
def sanitizeChars (s : List Char) : List Char :=
  s.map (fun c => if allowedChar c then c else '_')

def sanitizeComp (s : String) : String := ⟨sanitizeChars s.data⟩

/-- Resolution of one component against an absolute directory, as
`Path.resolve` does: `.` is dropped, `..` pops one level, anything else
descends. -/
def resolveComp (acc : List String) (c : String) : List String :=
  if c = "." then acc
  else if c = ".." then acc.dropLast
  else acc ++ [c]

/-- `Path.resolve` on an absolute path given by its components. -/
def resolvePath (p : List String) : List String := p.foldl resolveComp []

/-- A normalized absolute directory: no `.` or `..` components (the
resolved `base_dir` is of this shape). -/
def Normalized (p : List String) : Prop := ∀ c ∈ p, c ≠ "." ∧ c ≠ ".."

instance decNormalized (p : List String) : Decidable (Normalized p) :=
  List.decidableBAll _ p

/-- `is_relative_to`: `root` is an ancestor-or-self of `dir`. -/
def withinRoot : List String → List String → Bool
  | [], _ => true
  | _ :: _, [] => false
  | a :: as, b :: bs => decide (a = b) && withinRoot as bs

/-- `EventStore._session_path`: sanitize both ids, require the resolved
session directory to stay under the resolved base directory (else
`ValueError`), and return `{base}/{safe_client}/{safe_request}.jsonl`. -/
def sessionPath (base : List String) (clientId requestId : String) :
    Except String (List String) :=
  let safeClient := sanitizeComp clientId
  let safeRequest := sanitizeComp requestId
  let dir := resolvePath (base ++ [safeClient])
  if withinRoot (resolvePath base) dir then
    .ok (dir ++ [safeRequest ++ ".jsonl"])
  else
    .error "Invalid client_id"

theorem sanitize_allowed (s : List Char) : ∀ c ∈ sanitizeChars s, allowedChar c = true := by
  intro c hc
  rcases List.mem_map.mp hc with ⟨c0, _, hc0⟩
  by_cases h : allowedChar c0 = true
  · rw [if_pos h] at hc0
    rw [← hc0]
    exact h
  · rw [if_neg h] at hc0
    rw [← hc0]
    decide

theorem sanitize_no_sep (s : List Char) : ∀ c ∈ sanitizeChars s, c ≠ '/' := by
  intro c hc hsep
  have h := sanitize_allowed s c hc
  rw [hsep] at h
  exact absurd h (by decide)

theorem foldl_resolveComp_normalized (p : List String) (acc : List String)
    (h : ∀ c ∈ p, c ≠ "." ∧ c ≠ "..") :
    p.foldl resolveComp acc = acc ++ p := by
  induction p generalizing acc with
  | nil => simp
  | cons c rest ih =>
      have hc := h c (List.mem_cons_self _ _)
      have hstep : resolveComp acc c = acc ++ [c] := by
        unfold resolveComp
        rw [if_neg hc.1, if_neg hc.2]
      simp only [List.foldl_cons, hstep]
      rw [ih (acc ++ [c]) (fun x hx => h x (List.mem_cons_of_mem _ hx))]
      simp

theorem resolvePath_normalized (p : List String) (h : Normalized p) :
    resolvePath p = p := by
  have := foldl_resolveComp_normalized p [] h
  simpa [resolvePath] using this

theorem resolvePath_snoc (base : List String) (c : String) :
    resolvePath (base ++ [c]) = resolveComp (resolvePath base) c := by
  unfold resolvePath
  rw [List.foldl_append]
  rfl

theorem withinRoot_refl_append (root t : List String) :
    withinRoot root (root ++ t) = true := by
  induction root with
  | nil => rfl
  | cons a as ih => simp [withinRoot, ih]

theorem withinRoot_length (root dir : List String)
    (h : withinRoot root dir = true) : root.length ≤ dir.length := by
  induction root generalizing dir with
  | nil => simp
  | cons a as ih =>
      match dir with
      | [] => exact absurd h (by simp [withinRoot])
      | b :: bs =>
          simp only [withinRoot, Bool.and_eq_true] at h
          have := ih bs h.2
          simp only [List.length_cons]
          omega

theorem withinRoot_exists (root dir : List String)
    (h : withinRoot root dir = true) : ∃ t, dir = root ++ t := by
  induction root generalizing dir with
  | nil => exact ⟨dir, rfl⟩
  | cons a as ih =>
      match dir with
      | [] => exact absurd h (by simp [withinRoot])
      | b :: bs =>
          simp only [withinRoot, Bool.and_eq_true, decide_eq_true_eq] at h
          rcases ih bs h.2 with ⟨t, ht⟩
          exact ⟨t, by rw [ht, h.1]; rfl⟩

end PathSafety

open PathSafety in
/-- C9: both ids are sanitized (every character outside `[\w.\-]`
becomes `_`, so the result contains no path separator and is a single
path component); with a normalized non-root base directory, whenever
`_session_path` succeeds the returned path lies within the base
directory, and it raises the invalid-id `ValueError` exactly when the
sanitized client id is `..` — the only component whose resolution would
escape the root — so no file outside the root is ever created, read or
deleted. -/
theorem c9_path_sanitization_containment (base : List String) (cid rid : String)
    (hb : Normalized base) (hne : base ≠ []) :
    ((sanitizeComp cid).data
      = cid.data.map (fun c => if allowedChar c then c else '_')) ∧
    (∀ c ∈ (sanitizeComp cid).data, allowedChar c = true) ∧
    (∀ c ∈ (sanitizeComp cid).data, c ≠ '/') ∧
    (∀ c ∈ (sanitizeComp rid).data, c ≠ '/') ∧
    (∀ p, sessionPath base cid rid = .ok p → ∃ t, p = base ++ t) ∧
    ((∃ e, sessionPath base cid rid = .error e) ↔ sanitizeComp cid = "..") := by
  have hbase : resolvePath base = base := resolvePath_normalized base hb
  have hdir : resolvePath (base ++ [sanitizeComp cid])
      = resolveComp base (sanitizeComp cid) := by
    rw [resolvePath_snoc, hbase]
  refine ⟨rfl, sanitize_allowed cid.data, sanitize_no_sep cid.data,
    sanitize_no_sep rid.data, ?_, ?_⟩
  · intro p hp
    simp only [sessionPath] at hp
    rw [hdir, hbase] at hp
    by_cases hin : withinRoot base (resolveComp base (sanitizeComp cid)) = true
    · rw [if_pos hin] at hp
      rcases withinRoot_exists _ _ hin with ⟨t, ht⟩
      refine ⟨t ++ [sanitizeComp rid ++ ".jsonl"], ?_⟩
      have hp2 := Except.ok.inj hp
      rw [← hp2, ht, List.append_assoc]
    · rw [if_neg hin] at hp
      exact Except.noConfusion hp
  · constructor
    · rintro ⟨e, he⟩
      simp only [sessionPath] at he
      rw [hdir, hbase] at he
      by_cases hdot : sanitizeComp cid = "."
      · rw [hdot] at he
        have : resolveComp base "." = base := by
          unfold resolveComp
          rw [if_pos rfl]
        rw [this] at he
        rw [if_pos (by simpa using withinRoot_refl_append base [])] at he
        exact Except.noConfusion he
      · by_cases hdd : sanitizeComp cid = ".."
        · exact hdd
        · exfalso
          have : resolveComp base (sanitizeComp cid) = base ++ [sanitizeComp cid] := by
            unfold resolveComp
            rw [if_neg hdot, if_neg hdd]
          rw [this, if_pos (withinRoot_refl_append base _)] at he
          exact Except.noConfusion he
    · intro hdd
      simp only [sessionPath]
      rw [hdir, hbase, hdd]
      have hres : resolveComp base ".." = base.dropLast := by
        unfold resolveComp
        rw [if_neg (by decide), if_pos rfl]
      rw [hres]
      have hlen : base.dropLast.length < base.length := by
        have h1 : base.dropLast.length = base.length - 1 := List.length_dropLast base
        have h2 : 0 < base.length := List.length_pos.mpr hne
        omega
      have hfalse : withinRoot base base.dropLast = false := by
        rcases hw : withinRoot base base.dropLast with _ | _
        · rfl
        · have := withinRoot_length _ _ hw
          omega
      rw [if_neg (by rw [hfalse]; exact Bool.noConfusion)]
      exact ⟨"Invalid client_id", rfl⟩

open PathSafety in
/-- Witness for C9 at the path-traversal input of the repository's own
test (`client_id = "../../etc"`): the sanitized id is `.._.._etc`, a
plain component, so the operation succeeds inside the root. -/
theorem c9_path_sanitization_containment_witness :
    Normalized ["data", "events"] ∧ (["data", "events"] : List String) ≠ [] ∧
    ((∀ c ∈ (sanitizeComp "../../etc").data, c ≠ '/') ∧
      (∀ p, sessionPath ["data", "events"] "../../etc" "r1" = .ok p →
        ∃ t, p = ["data", "events"] ++ t) ∧
      ((∃ e, sessionPath ["data", "events"] "../../etc" "r1" = .error e) ↔
        sanitizeComp "../../etc" = "..")) := by
  have h := c9_path_sanitization_containment ["data", "events"] "../../etc" "r1"
    (by decide) (by decide)
  exact ⟨by decide, by decide, h.2.2.1, h.2.2.2.2.1, h.2.2.2.2.2⟩

end Soulstream
